import Mathlib

/-!
# Page behaviour controller: `static/js/main.js`

A shallow embedding of the event handlers of `main.js` and the properties the
specification states about them.

Conventions of the embedding.

* A JavaScript string that the code inspects character by character is a
  `List Char` (`Str`); class names, MIME types and messages, which the code only
  compares or stores, are `String`.
* `element.classList` is a `ClassList`, an ordered list of tokens with the
  `add`, `remove`, `toggle` and `contains` operations of `DOMTokenList`.
* `showNotification` appends a banner to the body; the banners shown so far are
  a `List Notification`.
* A handler that can dereference `null` returns a `Handled` value: the state at
  the moment the handler stopped and whether it stopped on a `TypeError`.
* Built-ins of the runtime whose exact behaviour the properties do not depend
  on are parameters: `toLowerCase` in `performSearch`, and the rounding `fl` of
  arithmetic results in `animateCounter`.
* Timers run on a clock that counts milliseconds (`searchStep`) or periods of
  the interval (`intervalElapses`); a timer fires when it is due.
-/

namespace MainJs

/-! ## Definitions -/

/-- JavaScript string values that are processed character by character. -/
abbrev Str := List Char

/-- The token list behind `element.classList`. -/
structure ClassList where
  tokens : List String
deriving DecidableEq

namespace ClassList

/-- The method `classList.contains(token)`. -/
def contains (cl : ClassList) (token : String) : Bool :=
  decide (token ∈ cl.tokens)

/-- The method `classList.add(token)`: appends the token unless already there. -/
def add (cl : ClassList) (token : String) : ClassList :=
  if token ∈ cl.tokens then cl else ⟨cl.tokens ++ [token]⟩

/-- The method `classList.remove(token)`. -/
def remove (cl : ClassList) (token : String) : ClassList :=
  ⟨cl.tokens.filter (fun t => t != token)⟩

/-- The method `classList.toggle(token)`: removes the token when present, adds
it otherwise. -/
def toggle (cl : ClassList) (token : String) : ClassList :=
  if token ∈ cl.tokens then cl.remove token else cl.add token

end ClassList

/-- Outcome of running a handler: the state it left behind and whether it was
aborted by a `TypeError` (a property access on `null`). -/
structure Handled (σ : Type) where
  state : σ
  threw : Bool

/-- A banner created by `showNotification(message, type)`. -/
structure Notification where
  message : String
  type : String
deriving DecidableEq

/-- The function `showNotification`: a new banner is appended to the body. -/
def showNotification (message : String) (type : String)
    (shown : List Notification) : List Notification :=
  shown ++ [⟨message, type⟩]

/-! ### File upload guard (`handleFileUpload`) -/

/-- A `File` of a file input: its size in bytes and its MIME type. -/
structure File where
  size : Nat
  type : String
deriving DecidableEq

/-- An `<input type="file">`: the selected files and the `value` property. -/
structure FileInput where
  files : List File
  value : String
deriving DecidableEq

/-- The constant `maxSize` of `handleFileUpload`. -/
def maxSize : Nat := 16 * 1024 * 1024

/-- The constant `allowedTypes` of `handleFileUpload`. -/
def allowedTypes : List String :=
  ["application/pdf", "application/msword",
   "application/vnd.openxmlformats-officedocument.wordprocessingml.document"]

/-- What `handleFileUpload` leaves behind: the returned value (`none` stands for
`undefined`), the input and the banners shown. -/
structure UploadResult where
  returned : Option Bool
  input : FileInput
  notifications : List Notification
deriving DecidableEq

/-- The function `handleFileUpload(input)`. -/
def handleFileUpload (input : FileInput) (shown : List Notification) : UploadResult :=
  match input.files[0]? with
  | some file =>
    if file.size > maxSize then
      ⟨some false, { input with value := "" },
        showNotification "File size must be less than 16MB" "danger" shown⟩
    else if !(allowedTypes.contains file.type) then
      ⟨some false, { input with value := "" },
        showNotification "Please upload a PDF or DOC file" "danger" shown⟩
    else
      ⟨some true, input, showNotification "File uploaded successfully!" "success" shown⟩
  | none => ⟨none, input, shown⟩

/-! ### Theme toggle (`initializeThemeToggle`) -/

/-- The object `localStorage`: key and value pairs, at most one per key. -/
abbrev Storage := List (String × String)

/-- The method `localStorage.getItem(key)`; `none` stands for `null`. -/
def getItem (store : Storage) (key : String) : Option String :=
  (store.find? (fun kv => kv.1 == key)).map (fun kv => kv.2)

/-- The method `localStorage.setItem(key, value)`. -/
def setItem (store : Storage) (key : String) (value : String) : Storage :=
  (key, value) :: store.filter (fun kv => kv.1 != key)

/-- String conversion of a boolean, as `setItem` applies it to its argument. -/
def boolToString (b : Bool) : String := if b then "true" else "false"

/-- The part of the page the theme code touches: the class list of `body`,
`localStorage`, whether an element `#theme-toggle` exists, and how many click
listeners the theme code has registered on it. -/
structure ThemePage where
  bodyClassList : ClassList
  localStorage : Storage
  themeToggle : Bool
  clickListeners : Nat

/-- The click listener that `initializeThemeToggle` registers. -/
def themeToggleClick (p : ThemePage) : ThemePage :=
  let body := p.bodyClassList.toggle "dark-mode"
  { p with
    bodyClassList := body
    localStorage := setItem p.localStorage "darkMode" (boolToString (body.contains "dark-mode")) }

/-- The function `initializeThemeToggle()`. -/
def initializeThemeToggle (p : ThemePage) : ThemePage :=
  let p1 := if p.themeToggle then { p with clickListeners := p.clickListeners + 1 } else p
  if getItem p1.localStorage "darkMode" = some "true" then
    { p1 with bodyClassList := p1.bodyClassList.add "dark-mode" }
  else p1

/-- A click on the theme control: every registered listener runs once. -/
def clickThemeToggle (p : ThemePage) : ThemePage :=
  themeToggleClick^[p.clickListeners] p

/-- Whether the body carries the dark-mode state. -/
def ThemePage.dark (p : ThemePage) : Bool := p.bodyClassList.contains "dark-mode"

/-! ### Password confirmation (`initializeFormValidation`) -/

/-- An `<input>` element: its `name`, its `value` and the message last set with
`setCustomValidity`. -/
structure InputField where
  name : String
  value : String
  customValidity : String
deriving DecidableEq

/-- The input elements of the document, in document order. -/
abbrev FormDocument := List InputField

/-- The call `document.querySelector('input[name="password"]')`. -/
def queryPasswordField (doc : FormDocument) : Option InputField :=
  doc.find? (fun f => f.name == "password")

/-- The positions of the fields on which `initializeFormValidation` registers
the confirmation listener: every `input[name="confirm_password"]`, provided the
document has both a password and a confirmation field at that moment. -/
def confirmListeners (doc : FormDocument) : List Nat :=
  let passwordFields := doc.filter (fun f => f.name == "password")
  let confirmPositions := (List.range doc.length).filter
    (fun k => (doc[k]?).any (fun f => f.name == "confirm_password"))
  if passwordFields.length ≠ 0 ∧ confirmPositions.length ≠ 0 then confirmPositions else []

/-- The listener body for the confirmation field at position `k`. -/
def confirmInputListener (doc : FormDocument) (k : Nat) : FormDocument :=
  match doc[k]? with
  | none => doc
  | some confirmField =>
    match queryPasswordField doc with
    | some passwordField =>
      if confirmField.value != passwordField.value then
        doc.set k { confirmField with customValidity := "Passwords do not match" }
      else
        doc.set k { confirmField with customValidity := "" }
    | none => doc.set k { confirmField with customValidity := "" }

/-- An input event on the field at position `k`: the user's edit gives the field
the value `typed`, then the listener runs if one is registered there. -/
def inputEvent (listeners : List Nat) (doc : FormDocument) (k : Nat) (typed : String) :
    FormDocument :=
  let doc1 := match doc[k]? with
    | some f => doc.set k { f with value := typed }
    | none => doc
  if k ∈ listeners then confirmInputListener doc1 k else doc1

/-- A session of edits: input events applied in order. -/
def inputEvents (listeners : List Nat) (doc : FormDocument) (edits : List (Nat × String)) :
    FormDocument :=
  edits.foldl (fun d e => inputEvent listeners d e.1 e.2) doc

/-! ### Rating widget (`initializeRatingSystem`) -/

/-- A `.star` element of a rating widget. -/
structure Star where
  classList : ClassList
deriving DecidableEq

/-- A `.rating-input` container: its stars in document order and the `value` of
its hidden input (`none` when the container has no hidden input, so that
`querySelector` gave `null`). -/
structure RatingWidget where
  stars : List Star
  input : Option String
deriving DecidableEq

/-- The click listener of the star at position `index`. The assignment
`input.value = rating` comes first and stops the listener when `input` is
`null`; the number assigned is stored as its decimal string. -/
def starClick (w : RatingWidget) (index : Nat) : Handled RatingWidget :=
  let rating := index + 1
  match w.input with
  | none => ⟨w, true⟩
  | some _ =>
    ⟨{ input := some (Nat.repr rating)
       stars := w.stars.mapIdx (fun i s =>
         if i < rating then ⟨s.classList.add "filled"⟩ else ⟨s.classList.remove "filled"⟩) },
     false⟩

/-- The mouseenter listener of the star at position `index`. -/
def starMouseenter (w : RatingWidget) (index : Nat) : RatingWidget :=
  let rating := index + 1
  { w with
    stars := w.stars.mapIdx (fun i s =>
      if i < rating then ⟨s.classList.add "hover"⟩ else ⟨s.classList.remove "hover"⟩) }

/-- The mouseleave listener of the container. -/
def ratingMouseleave (w : RatingWidget) : RatingWidget :=
  { w with stars := w.stars.map (fun star => ⟨star.classList.remove "hover"⟩) }

/-- Whether a star carries the given state. -/
def Star.has (s : Star) (token : String) : Bool := s.classList.contains token

/-! ### Client-side search (`performSearch`) -/

/-- The method `String.prototype.includes`: `sub` occurs in `s` at some
position. -/
def includes (s sub : Str) : Bool :=
  s.tails.any (fun t => sub.isPrefixOf t)

/-- A lower-casing function that acts on the ASCII letters only; it agrees with
`String.prototype.toLowerCase` on ASCII text and serves as a concrete instance
of that built-in. -/
def asciiToLowerCase (s : Str) : Str := s.map Char.toLower

/-- A result card (`.course-card, .internship-card, .project-card`): the text of
its first `.card-title` and `.card-text` descendants (`none` when
`querySelector` finds nothing) and the identity of the element returned by
`card.closest('.col-lg-4, .col-lg-6, .col-md-6')` (`none` for `null`). -/
structure Card where
  title : Option Str
  description : Option Str
  column : Option Nat

/-- The function `performSearch(query)`. The built-in `toLowerCase` is a
parameter; `display` gives `style.display` of every column element. The loop
over the cards stops with a `TypeError` at a card that has a title and a
description but no column ancestor. -/
def performSearch (toLowerCase : Str → Str) (query : Str) :
    List Card → (Nat → String) → Handled (Nat → String)
  | [], display => ⟨display, false⟩
  | card :: cards, display =>
    match card.title, card.description with
    | some title, some description =>
      let content := toLowerCase (title ++ [' '] ++ description)
      let shouldShow := includes content (toLowerCase query) || query == []
      match card.column with
      | none => ⟨display, true⟩
      | some column =>
        performSearch toLowerCase query cards
          (Function.update display column (if shouldShow then "block" else "none"))
    | _, _ => performSearch toLowerCase query cards display

/-! ### AJAX form submission (`showLoading`, `hideLoading`, `submitFormAjax`) -/

/-- A form control: its class list and its `disabled` property. -/
structure Control where
  classList : ClassList
  disabled : Bool
deriving DecidableEq

/-- The function `showLoading(element)`. -/
def showLoading (element : Control) : Control :=
  { classList := element.classList.add "loading", disabled := true }

/-- The function `hideLoading(element)`. -/
def hideLoading (element : Control) : Control :=
  { classList := element.classList.remove "loading", disabled := false }

/-- How the request of `submitFormAjax` settles. Either the promise of `fetch`
rejects (a network failure), or it fulfils with a response; `ok` is the `ok`
flag of that response (status 200 to 299) and `json` is what `response.json()`
yields: the parsed payload, or `none` when that promise rejects because the
body is not parseable. -/
inductive FetchOutcome (α : Type) where
  | networkError : FetchOutcome α
  | response (ok : Bool) (json : Option α) : FetchOutcome α

/-- What `submitFormAjax` acts on: the submit button, the banners shown, the
arguments with which the callback has been invoked, and the number of
`console.error` calls. -/
structure AjaxState (α : Type) where
  submitButton : Control
  notifications : List Notification
  callbackCalls : List α
  consoleErrors : Nat

/-- The rejection handler passed to `.catch`. -/
def ajaxCatch {α : Type} (s : AjaxState α) : AjaxState α :=
  { s with
    submitButton := hideLoading s.submitButton
    notifications := showNotification "An error occurred. Please try again." "danger"
      s.notifications
    consoleErrors := s.consoleErrors + 1 }

/-- The fulfilment handler `data => { hideLoading(submitButton); if (callback)
callback(data); }`. A callback is a function telling, for each payload, whether
the call throws; `none` stands for a falsy `callback` argument. -/
def ajaxThen {α : Type} (callback : Option (α → Bool)) (data : α) (s : AjaxState α) :
    Handled (AjaxState α) :=
  let s1 := { s with submitButton := hideLoading s.submitButton }
  match callback with
  | none => ⟨s1, false⟩
  | some cb => ⟨{ s1 with callbackCalls := s1.callbackCalls ++ [data] }, cb data⟩

/-- The synchronous part of `submitFormAjax`: `showLoading(submitButton)`, which
is a `TypeError` when the form has no submit button. -/
def submitFormAjaxStart {α : Type} (submitButton : Option Control)
    (shown : List Notification) : Except String (AjaxState α) :=
  match submitButton with
  | none => .error "TypeError"
  | some button => .ok ⟨showLoading button, shown, [], 0⟩

/-- The promise chain `fetch(...).then(response => response.json()).then(...)
.catch(...)` once the request has settled. The chain never looks at the status
of the response. -/
def submitFormAjaxSettle {α : Type} (callback : Option (α → Bool)) (outcome : FetchOutcome α)
    (s : AjaxState α) : AjaxState α :=
  match outcome with
  | .networkError => ajaxCatch s
  | .response _ none => ajaxCatch s
  | .response _ (some data) =>
    let r := ajaxThen callback data s
    if r.threw then ajaxCatch r.state else r.state

/-- The function `submitFormAjax(form, callback)`, run until the request has
settled. -/
def submitFormAjax {α : Type} (submitButton : Option Control) (callback : Option (α → Bool))
    (outcome : FetchOutcome α) (shown : List Notification) : Except String (AjaxState α) :=
  (submitFormAjaxStart submitButton shown).map (submitFormAjaxSettle callback outcome)

/-! ### Email validation (`validateEmail`) -/

/-- The patterns needed for the regular expression of `validateEmail`, together
with the forms that arise as their derivatives. -/
inductive RegExp where
  | empty : RegExp
  | epsilon : RegExp
  | cls (p : Char → Bool) : RegExp
  | alt (a b : RegExp) : RegExp
  | seq (a b : RegExp) : RegExp
  | star (a : RegExp) : RegExp

namespace RegExp

/-- The quantifier `+`. -/
def plus (a : RegExp) : RegExp := seq a (star a)

/-- A pattern for one given character. -/
def chr (c : Char) : RegExp := cls (fun x => x == c)

/-- Whether the pattern matches the empty string. -/
def nullable : RegExp → Bool
  | empty => false
  | epsilon => true
  | cls _ => false
  | alt a b => nullable a || nullable b
  | seq a b => nullable a && nullable b
  | star _ => true

/-- The derivative of a pattern by a character: it matches `s` exactly when the
pattern matches `c :: s`. -/
def deriv : RegExp → Char → RegExp
  | empty, _ => empty
  | epsilon, _ => empty
  | cls p, c => if p c then epsilon else empty
  | alt a b, c => alt (deriv a c) (deriv b c)
  | seq a b, c =>
    if nullable a then alt (seq (deriv a c) b) (deriv b c) else seq (deriv a c) b
  | star a, c => seq (deriv a c) (star a)

/-- The method `test` for a pattern written between `^` and `$`: the whole
string has to match. -/
def test : RegExp → Str → Bool
  | r, [] => nullable r
  | r, c :: s => test (deriv r c) s

/-- The strings a pattern matches. -/
inductive Matches : RegExp → Str → Prop where
  | epsilon : Matches RegExp.epsilon []
  | cls {p : Char → Bool} {c : Char} : p c = true → Matches (RegExp.cls p) [c]
  | altLeft {a b : RegExp} {s : Str} : Matches a s → Matches (RegExp.alt a b) s
  | altRight {a b : RegExp} {s : Str} : Matches b s → Matches (RegExp.alt a b) s
  | seq {a b : RegExp} {x y : Str} : Matches a x → Matches b y →
      Matches (RegExp.seq a b) (x ++ y)
  | starNil {a : RegExp} : Matches (RegExp.star a) []
  | starCons {a : RegExp} {x y : Str} : Matches a x → Matches (RegExp.star a) y →
      Matches (RegExp.star a) (x ++ y)

end RegExp

/-- The class `\s` of ECMAScript regular expressions: the white space and line
terminator code points. -/
def isRegexSpace (c : Char) : Bool :=
  let n := c.toNat
  (9 ≤ n && n ≤ 13) || n == 32 || n == 160 || n == 5760 || (8192 ≤ n && n ≤ 8202) ||
    n == 8232 || n == 8233 || n == 8239 || n == 8287 || n == 12288 || n == 65279

/-- The character class `[^\s@]`. -/
def notSpaceOrAt (c : Char) : Bool := !(isRegexSpace c || c == '@')

/-- The constant `emailRegex`, `/^[^\s@]+@[^\s@]+\.[^\s@]+$/`. -/
def emailRegex : RegExp :=
  .seq (.plus (.cls notSpaceOrAt))
    (.seq (.chr '@')
      (.seq (.plus (.cls notSpaceOrAt))
        (.seq (.chr '.') (.plus (.cls notSpaceOrAt)))))

/-- An `<input type="email">`: its `value` and its class list. -/
structure EmailField where
  value : Str
  classList : ClassList
deriving DecidableEq

/-- What `validateEmail` leaves behind: the returned value and the field. -/
structure EmailResult where
  returned : Bool
  field : EmailField
deriving DecidableEq

/-- The function `validateEmail(field)`. A string is truthy when it is not
empty. -/
def validateEmail (field : EmailField) : EmailResult :=
  let isValid := emailRegex.test field.value
  if field.value ≠ [] ∧ !isValid then
    ⟨isValid, { field with
      classList := (field.classList.add "is-invalid").remove "is-valid" }⟩
  else if field.value ≠ [] ∧ isValid then
    ⟨isValid, { field with
      classList := (field.classList.remove "is-invalid").add "is-valid" }⟩
  else
    ⟨isValid, field⟩

/-- The blur listener that `initializeFormValidation` registers on every
`input[type="email"]`. -/
def emailBlur (field : EmailField) : EmailField := (validateEmail field).field

/-! ### Counter animation (`animateCounter`) -/

/-- The call `text.replace(/\D/g, '')`: the decimal digits of the text. -/
def stripNonDigits (s : Str) : Str := s.filter Char.isDigit

/-- The call `text.replace(/\d/g, '')`: the text without its decimal digits. -/
def stripDigits (s : Str) : Str := s.filter (fun c => !c.isDigit)

/-- The Number values that arise in `animateCounter`: `NaN`, positive infinity,
or a finite value. Every operand there is non-negative, so that negative
infinity and negative zero need no representation. -/
inductive Num where
  | nan : Num
  | inf : Num
  | fin (q : ℚ) : Num

/-- The largest finite double, `Number.MAX_VALUE`. -/
def maxDouble : ℚ := (2 ^ 53 - 1) * 2 ^ 971

/-- The Number for a non-negative real result `x`. The parameter `fl` rounds a
real to the 53-bit precision of a double as if the exponent range were
unbounded; a rounded result beyond `Number.MAX_VALUE` overflows to infinity. -/
def Num.round (fl : ℚ → ℚ) (x : ℚ) : Num :=
  if fl x ≤ maxDouble then .fin (fl x) else .inf

/-- What a rounding to double precision satisfies: the numbers `m * 2 ^ e` with
`m < 2 ^ 53` are representable and thus kept, the rounding is monotone, and in
the normal range the relative error is at most `2 ^ (-53)`. -/
structure Rounding (fl : ℚ → ℚ) : Prop where
  exact : ∀ m e : Nat, m < 2 ^ 53 → fl ((m : ℚ) * 2 ^ e) = (m : ℚ) * 2 ^ e
  mono : ∀ x y : ℚ, x ≤ y → fl x ≤ fl y
  error : ∀ x : ℚ, 1 / 2 ^ 1022 ≤ x → |fl x - x| ≤ x / 2 ^ 53

/-- The integer that a string of decimal digits denotes. -/
def decimalValue (s : Str) : Nat :=
  s.foldl (fun n c => 10 * n + (c.toNat - '0'.toNat)) 0

/-- The call `parseInt(s)` for a string of decimal digits, the only strings
`animateCounter` passes to it: `NaN` for the empty string, otherwise the Number
for the integer the digits denote, that is, this integer rounded to a double.
(Past the 20th significant digit ECMAScript lets an implementation read the
digits as zeros before it rounds; the embedding rounds the integer itself.) -/
def parseInt (fl : ℚ → ℚ) (s : Str) : Num :=
  if s = [] then .nan else Num.round fl (decimalValue s)

/-- Division of non-negative numbers. -/
def Num.div (fl : ℚ → ℚ) : Num → Num → Num
  | .fin x, .fin y =>
    if y = 0 then (if x = 0 then .nan else .inf) else Num.round fl (x / y)
  | .inf, .fin _ => .inf
  | .fin _, .inf => .fin 0
  | _, _ => .nan

/-- Addition of non-negative numbers. -/
def Num.add (fl : ℚ → ℚ) : Num → Num → Num
  | .fin x, .fin y => Num.round fl (x + y)
  | .nan, _ => .nan
  | _, .nan => .nan
  | _, _ => .inf

/-- The comparison `a >= b`, false when an operand is `NaN`. -/
def Num.ge : Num → Num → Bool
  | .fin x, .fin y => decide (y ≤ x)
  | .inf, .fin _ => true
  | .inf, .inf => true
  | _, _ => false

/-- The function `Math.floor`. -/
def Num.floor : Num → Num
  | .fin x => .fin ⌊x⌋
  | a => a

/-- The number of decimal digits of a natural number. -/
def digitCount (x : Nat) : Nat := (Nat.toDigits 10 x).length

/-- The decimal numbers with at most `k` significant digits next to `x`: the
multiple of `10 ^ (n - k)` at or below `x` and the one above it, `n` being the
number of digits of `x`. -/
def candidates (x k : Nat) : List Nat :=
  let p := 10 ^ (digitCount x - k)
  [x / p * p, (x / p + 1) * p]

/-- The candidates that denote the Number `x`, that is, that round to it. -/
def accepted (fl : ℚ → ℚ) (x k : Nat) : List Nat :=
  (candidates x k).filter (fun v => decide (fl (v : ℚ) = (x : ℚ)))

/-- Of the accepted candidates the one closest to `x`; of two equally close
ones, the one whose significand is even. -/
def pick (x p : Nat) : List Nat → Option Nat
  | [] => none
  | [v] => some v
  | lo :: hi :: _ =>
    if x - lo < hi - x then some lo
    else if hi - x < x - lo then some hi
    else if (lo / p) % 2 = 0 then some lo
    else some hi

/-- The search of `Number::toString` for the decimal number with the fewest
significant digits that denotes `x`, starting with `k` significant digits. -/
def shortestFrom (fl : ℚ → ℚ) (x : Nat) : Nat → Nat → Nat
  | 0, _ => x
  | fuel + 1, k =>
    match pick x (10 ^ (digitCount x - k)) (accepted fl x k) with
    | some v => v
    | none => shortestFrom fl x fuel (k + 1)

/-- The decimal number that `Number::toString` prints for the positive integer
Number `x`. -/
def shortest (fl : ℚ → ℚ) (x : Nat) : Nat :=
  shortestFrom fl x (digitCount x) 1

/-- The digits of a decimal number without its trailing zeros. -/
def significand (ds : List Char) : List Char :=
  (ds.reverse.dropWhile (fun c => c == '0')).reverse

/-- The notation of `Number::toString` for a positive integer `v` with `n`
digits, of which `k` are significant: up to `n = 21` the significant digits
followed by `n - k` zeros, beyond that the exponent notation. -/
def formatDecimal (v : Nat) : Str :=
  let ds := Nat.toDigits 10 v
  let n := ds.length
  let s := significand ds
  let k := s.length
  if n ≤ 21 then s ++ List.replicate (n - k) '0'
  else
    match s with
    | [] => []
    | d :: rest =>
      if rest = [] then d :: 'e' :: '+' :: Nat.toDigits 10 (n - 1)
      else d :: '.' :: (rest ++ 'e' :: '+' :: Nat.toDigits 10 (n - 1))

/-- String conversion of a Number whose value is the natural number `x`. -/
def naturalToString (fl : ℚ → ℚ) (x : Nat) : Str :=
  if x = 0 then ['0'] else formatDecimal (shortest fl x)

/-- String conversion of the result of `Math.floor`, as the concatenation
`formatted + suffix` applies it. -/
def formattedToString (fl : ℚ → ℚ) : Num → Str
  | .nan => ['N', 'a', 'N']
  | .inf => ['I', 'n', 'f', 'i', 'n', 'i', 't', 'y']
  | .fin q =>
    if q < 0 then '-' :: naturalToString fl (Int.toNat ⌊-q⌋)
    else naturalToString fl (Int.toNat ⌊q⌋)

/-- The state of one count-up: the constants `target` and `increment` and the
variable `current` of the closure, whether the interval timer is still
scheduled, and the `textContent` of the heading. -/
structure CounterAnimation where
  target : Num
  increment : Num
  current : Num
  timer : Bool
  textContent : Str

/-- The function `animateCounter(counter)` up to the call of `setInterval`. -/
def animateCounter (fl : ℚ → ℚ) (textContent : Str) : CounterAnimation :=
  let target := parseInt fl (stripNonDigits textContent)
  let duration : Num := .fin 2000
  let increment := Num.div fl target (Num.div fl duration (.fin 16))
  { target := target, increment := increment, current := .fin 0, timer := true,
    textContent := textContent }

/-- The callback passed to `setInterval`. -/
def counterTick (fl : ℚ → ℚ) (a : CounterAnimation) : CounterAnimation :=
  let current := Num.add fl a.current a.increment
  let reached := Num.ge current a.target
  let current := if reached then a.target else current
  let formatted := Num.floor current
  let originalText := a.textContent
  let suffix := stripDigits originalText
  { a with
    current := current
    timer := if reached then false else a.timer
    textContent := formattedToString fl formatted ++ suffix }

/-- One period of 16 ms: the callback runs unless `clearInterval` has been
called. -/
def intervalElapses (fl : ℚ → ℚ) (a : CounterAnimation) : CounterAnimation :=
  if a.timer then counterTick fl a else a

/-- The count-up of a heading with the given text after `n` periods. -/
def afterTicks (fl : ℚ → ℚ) (textContent : Str) (n : Nat) : CounterAnimation :=
  (intervalElapses fl)^[n] (animateCounter fl textContent)

/-- A heading whose number is `10^22`, followed by a plus sign. -/
def largeHeading : Str :=
  '1' :: (List.replicate 22 '0' ++ ['+'])

/-! ### Search debounce (`initializeSearchFilters`) -/

/-- The delay passed to `setTimeout` by the search input listener. -/
def debounceDelay : Nat := 300

/-- A timer registered with `setTimeout` and still pending: its handle, the
search input whose listener registered it, and the time in milliseconds at
which it is due. -/
structure Timer where
  id : Nat
  input : Nat
  due : Nat
deriving DecidableEq

/-- A call of `performSearch`: when it ran, for which search input, and the
query it received. -/
structure SearchRun where
  time : Nat
  input : Nat
  query : Str
deriving DecidableEq

/-- The search inputs and the timers of the page. The inputs are numbered; each
has its `value` and the variable `searchTimeout` of its own listener closure
(`none` while still `undefined`). `now` is the clock in milliseconds and
`searches` records the calls of `performSearch` in the order they ran. -/
structure SearchPage where
  now : Nat
  nextTimerId : Nat
  timers : List Timer
  searchTimeout : Nat → Option Nat
  value : Nat → Str
  searches : List SearchRun

/-- What happens on the page: an input event on the search input `k`, whose
value is `typed` from then on, or the passing of one millisecond. -/
inductive SearchEvent where
  | input (k : Nat) (typed : Str) : SearchEvent
  | tick : SearchEvent

/-- The page right after `initializeSearchFilters`: no timer has been set. -/
def SearchPage.initial (value : Nat → Str) : SearchPage :=
  { now := 0, nextTimerId := 0, timers := [], searchTimeout := fun _ => none,
    value := value, searches := [] }

/-- The call `clearTimeout(handle)`: the timer with that handle, if it is still
pending, is dropped; `undefined` and stale handles change nothing. -/
def clearTimeout (timers : List Timer) (handle : Option Nat) : List Timer :=
  match handle with
  | none => timers
  | some i => timers.filter (fun t => t.id != i)

/-- The input listener of the search input `k`:
`clearTimeout(searchTimeout); searchTimeout = setTimeout(..., 300)`. -/
def searchInputListener (s : SearchPage) (k : Nat) : SearchPage :=
  let cleared := clearTimeout s.timers (s.searchTimeout k)
  let handle := s.nextTimerId
  { s with
    timers := cleared ++ [⟨handle, k, s.now + debounceDelay⟩]
    nextTimerId := handle + 1
    searchTimeout := Function.update s.searchTimeout k (some handle) }

/-- The callback of a timer, `() => { performSearch(this.value); }`: the query
is the value of the input at the moment the timer fires. -/
def fireTimer (s : SearchPage) (t : Timer) : SearchPage :=
  { s with searches := s.searches ++ [⟨s.now, t.input, s.value t.input⟩] }

/-- One event. When a millisecond passes, the timers that are due fire in the
order in which they were set. -/
def searchStep (s : SearchPage) : SearchEvent → SearchPage
  | .input k typed => searchInputListener { s with value := Function.update s.value k typed } k
  | .tick =>
    let now := s.now + 1
    let due := s.timers.filter (fun t => decide (t.due ≤ now))
    let pending := s.timers.filter (fun t => !decide (t.due ≤ now))
    due.foldl fireTimer { s with now := now, timers := pending }

/-- A sequence of events, in order. -/
def searchRun (events : List SearchEvent) (s : SearchPage) : SearchPage :=
  events.foldl searchStep s

/-- The pending timers set by the listener of the search input `k`. -/
def SearchPage.timersOf (s : SearchPage) (k : Nat) : List Timer :=
  s.timers.filter (fun t => t.input == k)

/-- The calls of `performSearch` made for the search input `k`. -/
def SearchPage.searchesOf (s : SearchPage) (k : Nat) : List SearchRun :=
  s.searches.filter (fun r => r.input == k)

/-- Whether an event is an input event on the search input `k`. -/
def SearchEvent.isInputOn (k : Nat) : SearchEvent → Bool
  | .input j _ => j == k
  | .tick => false

/-- The number of milliseconds that pass during a sequence of events. -/
def elapsed (events : List SearchEvent) : Nat :=
  events.countP (fun e => match e with
    | .tick => true
    | .input _ _ => false)

/-- Consistency of the timer handles: a pending timer is the one its input
holds in `searchTimeout`, every handle held was issued before, and no two
inputs hold the same handle. -/
structure SearchPage.Consistent (s : SearchPage) : Prop where
  owner : ∀ t ∈ s.timers, s.searchTimeout t.input = some t.id
  issued : ∀ j i, s.searchTimeout j = some i → i < s.nextTimerId
  distinct : ∀ j1 j2 i, s.searchTimeout j1 = some i → s.searchTimeout j2 = some i → j1 = j2

/-! ## Theorems -/

/-! ### Token lists -/

theorem ClassList.contains_add (cl : ClassList) (t u : String) :
    (cl.add t).contains u = (cl.contains u || decide (u = t)) := by
  unfold ClassList.add ClassList.contains
  by_cases h : t ∈ cl.tokens
  · by_cases hu : u = t
    · subst hu; simp [h]
    · simp [h, hu]
  · simp [h]

theorem ClassList.contains_remove (cl : ClassList) (t u : String) :
    (cl.remove t).contains u = (cl.contains u && !decide (u = t)) := by
  unfold ClassList.remove ClassList.contains
  by_cases hu : u = t
  · subst hu; simp
  · simp [hu]

theorem ClassList.contains_toggle (cl : ClassList) (t : String) :
    (cl.toggle t).contains t = !cl.contains t := by
  unfold ClassList.toggle
  by_cases h : t ∈ cl.tokens
  · rw [if_pos h, ClassList.contains_remove]; simp [ClassList.contains, h]
  · rw [if_neg h, ClassList.contains_add]; simp [ClassList.contains, h]

/-! ### File upload guard -/

/-- C1: with a first selected file of size `s` and MIME type `t`,
`handleFileUpload` returns `false`, sets the value of the input to the empty
string and shows one `danger` banner exactly when `s` exceeds 16 MiB or `t` is
not one of the three allowed types; otherwise it returns `true`, shows one
`success` banner and leaves the input as it was. The files after the first do
not influence any of this. -/
theorem handleFileUpload_spec (file : File) (rest : List File) (value : String)
    (shown : List Notification) :
    let r := handleFileUpload ⟨file :: rest, value⟩ shown
    let bad := file.size > 16 * 1024 * 1024 ∨
      ¬ (file.type = "application/pdf" ∨ file.type = "application/msword" ∨
         file.type = "application/vnd.openxmlformats-officedocument.wordprocessingml.document")
    (r.returned = some false ↔ bad) ∧
    (bad → r.returned = some false ∧ r.input = ⟨file :: rest, ""⟩ ∧
      ∃ message, r.notifications = shown ++ [⟨message, "danger"⟩]) ∧
    (¬ bad → r.returned = some true ∧ r.input = ⟨file :: rest, value⟩ ∧
      ∃ message, r.notifications = shown ++ [⟨message, "success"⟩]) ∧
    (∀ others : List File,
      (handleFileUpload ⟨file :: others, value⟩ shown).returned = r.returned ∧
      (handleFileUpload ⟨file :: others, value⟩ shown).notifications = r.notifications ∧
      (handleFileUpload ⟨file :: others, value⟩ shown).input.value = r.input.value) := by
  intro r bad
  have hmem : file.type ∈ allowedTypes ↔
      (file.type = "application/pdf" ∨ file.type = "application/msword" ∨
       file.type = "application/vnd.openxmlformats-officedocument.wordprocessingml.document") := by
    simp [allowedTypes]
  have key : ∀ others : List File,
      (bad → handleFileUpload ⟨file :: others, value⟩ shown =
        ⟨some false, ⟨file :: others, ""⟩,
          shown ++ [⟨if file.size > maxSize then "File size must be less than 16MB"
            else "Please upload a PDF or DOC file", "danger"⟩]⟩) ∧
      (¬ bad → handleFileUpload ⟨file :: others, value⟩ shown =
        ⟨some true, ⟨file :: others, value⟩,
          shown ++ [⟨"File uploaded successfully!", "success"⟩]⟩) := by
    intro others
    constructor
    · intro hb
      by_cases hs : file.size > maxSize
      · simp [handleFileUpload, hs, showNotification]
      · have ht : file.type ∉ allowedTypes := by
          rw [hmem]
          rcases hb with hb | hb
          · exact absurd hb hs
          · exact hb
        simp [handleFileUpload, hs, ht, showNotification]
    · intro hb
      have hs : ¬ file.size > maxSize := fun h => hb (Or.inl h)
      have ht : file.type ∈ allowedTypes := by
        rw [hmem]
        by_contra h
        exact hb (Or.inr h)
      simp [handleFileUpload, hs, ht, showNotification]
  by_cases hb : bad
  · have e := (key rest).1 hb
    refine ⟨?_, ?_, ?_, ?_⟩
    · exact ⟨fun _ => hb, fun _ => by simp only [r]; rw [e]⟩
    · intro _
      simp only [r]; rw [e]
      exact ⟨rfl, rfl, _, rfl⟩
    · intro h; exact absurd hb h
    · intro others
      have e2 := (key others).1 hb
      simp only [r]; rw [e, e2]
      exact ⟨rfl, rfl, rfl⟩
  · have e := (key rest).2 hb
    refine ⟨?_, ?_, ?_, ?_⟩
    · constructor
      · intro h
        simp only [r] at h; rw [e] at h
        simp at h
      · intro h; exact absurd h hb
    · intro h; exact absurd h hb
    · intro _
      simp only [r]; rw [e]
      exact ⟨rfl, rfl, _, rfl⟩
    · intro others
      have e2 := (key others).2 hb
      simp only [r]; rw [e, e2]
      exact ⟨rfl, rfl, rfl⟩


/-! ### Theme toggle -/

theorem getItem_setItem (store : Storage) (key value : String) :
    getItem (setItem store key value) key = some value := by
  simp [getItem, setItem]

theorem themeToggleClick_dark (p : ThemePage) :
    (themeToggleClick p).dark = !p.dark := by
  simp [themeToggleClick, ThemePage.dark, ClassList.contains_toggle]

theorem themeToggleClick_stored (p : ThemePage) :
    getItem (themeToggleClick p).localStorage "darkMode" =
      some (boolToString (themeToggleClick p).dark) := by
  simp [themeToggleClick, ThemePage.dark, getItem_setItem]

theorem themeToggleClick_listeners (p : ThemePage) :
    (themeToggleClick p).clickListeners = p.clickListeners := rfl

theorem clickThemeToggle_one (p : ThemePage) (h : p.clickListeners = 1) :
    clickThemeToggle p = themeToggleClick p := by
  simp [clickThemeToggle, h]

theorem clickThemeToggle_iterate_listeners (p : ThemePage) (h : p.clickListeners = 1) (n : Nat) :
    (clickThemeToggle^[n] p).clickListeners = 1 := by
  induction n with
  | zero => simpa using h
  | succ n ih =>
    rw [Function.iterate_succ_apply', clickThemeToggle_one _ ih, themeToggleClick_listeners, ih]

/-- C6: on a page with a theme control whose body starts without the dark-mode
state, after `initializeThemeToggle` the body is dark exactly when the stored
`darkMode` value is the string `"true"`; after every later click on the control
the dark-mode state is the negation of what it was and the stored value is
`"true"` when the body is now dark and `"false"` otherwise; with nothing stored
the page loads light and the first click gives dark mode and stores `"true"`. -/
theorem themeToggle_spec (body : ClassList) (store : Storage)
    (hbody : body.contains "dark-mode" = false) :
    let p := initializeThemeToggle ⟨body, store, true, 0⟩
    (p.dark = true ↔ getItem store "darkMode" = some "true") ∧
    (∀ n : Nat,
      let before := clickThemeToggle^[n] p
      let after := clickThemeToggle before
      after.dark = !before.dark ∧
      getItem after.localStorage "darkMode" = some (if after.dark then "true" else "false")) ∧
    (getItem store "darkMode" = none →
      p.dark = false ∧ (clickThemeToggle p).dark = true ∧
      getItem (clickThemeToggle p).localStorage "darkMode" = some "true") := by
  intro p
  have hl : p.clickListeners = 1 := by
    by_cases hv : getItem store "darkMode" = some "true" <;>
      simp [p, initializeThemeToggle, hv]
  have hdark : p.dark = true ↔ getItem store "darkMode" = some "true" := by
    simp only [p, initializeThemeToggle, ThemePage.dark]
    by_cases hv : getItem store "darkMode" = some "true"
    · simp [hv, ClassList.contains_add]
    · simp [hv, hbody]
  have hclick : ∀ s : ThemePage, s.clickListeners = 1 →
      (clickThemeToggle s).dark = !s.dark ∧
      getItem (clickThemeToggle s).localStorage "darkMode" =
        some (if (clickThemeToggle s).dark then "true" else "false") := by
    intro s hs
    rw [clickThemeToggle_one s hs]
    exact ⟨themeToggleClick_dark s, themeToggleClick_stored s⟩
  refine ⟨hdark, ?_, ?_⟩
  · intro n
    exact hclick _ (clickThemeToggle_iterate_listeners p hl n)
  · intro hnone
    have hlight : p.dark = false := by
      cases hd : p.dark with
      | false => rfl
      | true => rw [hdark.mp hd] at hnone; cases hnone
    have h1 := hclick p hl
    rw [hlight] at h1
    refine ⟨hlight, h1.1, ?_⟩
    rw [h1.2, h1.1]
    rfl

/-- Witness for C6: an empty body class list and an empty store. -/
theorem themeToggle_spec_witness :
    (ClassList.mk []).contains "dark-mode" = false ∧
    (clickThemeToggle (initializeThemeToggle ⟨⟨[]⟩, [], true, 0⟩)).dark = true := by
  refine ⟨by decide, ?_⟩
  exact ((themeToggle_spec ⟨[]⟩ [] (by decide)).2.2 (by decide)).2.1

/-! ### Password confirmation -/

theorem find?_set_of_not (p : InputField → Bool) (l : List InputField) (k : Nat)
    (old new : InputField) (hk : l[k]? = some old) (hold : p old = false)
    (hnew : p new = false) : (l.set k new).find? p = l.find? p := by
  induction l generalizing k with
  | nil => simp
  | cons a t ih =>
    cases k with
    | zero =>
      simp only [List.getElem?_cons_zero, Option.some.injEq] at hk
      subst hk
      simp [List.find?, hold, hnew]
    | succ k =>
      simp only [List.getElem?_cons_succ] at hk
      simp only [List.set_cons_succ, List.find?]
      rw [ih k hk]

theorem map_name_set (l : List InputField) (k : Nat) (old new : InputField)
    (hk : l[k]? = some old) (hname : new.name = old.name) :
    (l.set k new).map (fun f => f.name) = l.map (fun f => f.name) := by
  induction l generalizing k with
  | nil => simp
  | cons a t ih =>
    cases k with
    | zero =>
      simp only [List.getElem?_cons_zero, Option.some.injEq] at hk
      subst hk
      simp [hname]
    | succ k =>
      simp only [List.getElem?_cons_succ] at hk
      simp only [List.set_cons_succ, List.map_cons]
      rw [ih k hk]

theorem confirmInputListener_names (doc : FormDocument) (k : Nat) :
    (confirmInputListener doc k).map (fun f => f.name) = doc.map (fun f => f.name) := by
  unfold confirmInputListener
  cases hk : doc[k]? with
  | none => rfl
  | some c =>
    simp only
    split
    · split
      · exact map_name_set doc k c _ hk rfl
      · exact map_name_set doc k c _ hk rfl
    · exact map_name_set doc k c _ hk rfl

theorem inputEvent_names (listeners : List Nat) (doc : FormDocument) (k : Nat) (typed : String) :
    (inputEvent listeners doc k typed).map (fun f => f.name) = doc.map (fun f => f.name) := by
  have h1 : List.map (fun f : InputField => f.name) (match doc[k]? with
      | some f => doc.set k { f with value := typed }
      | none => doc) = doc.map (fun f => f.name) := by
    cases hk : doc[k]? with
    | none => rfl
    | some c => exact map_name_set doc k c _ hk rfl
  unfold inputEvent
  simp only
  split
  · rw [confirmInputListener_names, h1]
  · exact h1

theorem inputEvents_names (listeners : List Nat) (doc : FormDocument)
    (edits : List (Nat × String)) :
    (inputEvents listeners doc edits).map (fun f => f.name) = doc.map (fun f => f.name) := by
  induction edits generalizing doc with
  | nil => rfl
  | cons e es ih =>
    simp only [inputEvents, List.foldl_cons]
    have := ih (inputEvent listeners doc e.1 e.2)
    simp only [inputEvents] at this
    rw [this, inputEvent_names]

theorem getElem?_name_of_names (doc doc0 : FormDocument) (k : Nat) (c : InputField)
    (h : doc.map (fun f => f.name) = doc0.map (fun f => f.name)) (hk : doc0[k]? = some c) :
    ∃ c1, doc[k]? = some c1 ∧ c1.name = c.name := by
  have h2 : (doc.map (fun f => f.name))[k]? = some c.name := by
    rw [h, List.getElem?_map, hk]; rfl
  rw [List.getElem?_map] at h2
  cases hd : doc[k]? with
  | none => rw [hd] at h2; cases h2
  | some c1 =>
    rw [hd] at h2
    exact ⟨c1, rfl, by simpa using h2⟩

theorem mem_confirmListeners (doc0 : FormDocument) (k : Nat) (c : InputField)
    (hpw : ∃ f ∈ doc0, f.name = "password") (hk : doc0[k]? = some c)
    (hc : c.name = "confirm_password") : k ∈ confirmListeners doc0 := by
  obtain ⟨f, hf, hfn⟩ := hpw
  have hklt : k < doc0.length := by
    by_contra h
    rw [List.getElem?_eq_none (by omega)] at hk
    cases hk
  have hmem : k ∈ (List.range doc0.length).filter
      (fun k => (doc0[k]?).any (fun f : InputField => f.name == "confirm_password")) := by
    simp [List.mem_filter, hklt, hk, hc]
  have hp : (doc0.filter (fun f => f.name == "password")).length ≠ 0 := by
    have : f ∈ doc0.filter (fun f => f.name == "password") := by
      simp [List.mem_filter, hf, hfn]
    intro h0
    rw [List.length_eq_zero] at h0
    rw [h0] at this
    cases this
  have hq : ((List.range doc0.length).filter
      (fun k => (doc0[k]?).any (fun f : InputField => f.name == "confirm_password"))).length ≠ 0 := by
    intro h0
    rw [List.length_eq_zero] at h0
    rw [h0] at hmem
    cases hmem
  unfold confirmListeners
  simp only
  rw [if_pos ⟨hp, hq⟩]
  exact hmem

theorem confirmInputListener_spec (doc : FormDocument) (k : Nat) (cf pw : InputField)
    (hget : doc[k]? = some cf) (hq : queryPasswordField doc = some pw)
    (hn : (cf.name == "password") = false) :
    (confirmInputListener doc k)[k]? =
      some { cf with customValidity :=
        if cf.value = pw.value then "" else "Passwords do not match" } ∧
    queryPasswordField (confirmInputListener doc k) = some pw := by
  have hklt : k < doc.length := by
    by_contra h
    rw [List.getElem?_eq_none (by omega)] at hget
    cases hget
  have hfind : ∀ msg : String,
      queryPasswordField (doc.set k { cf with customValidity := msg }) = some pw := by
    intro msg
    unfold queryPasswordField at hq ⊢
    rw [find?_set_of_not _ doc k cf _ hget hn hn]
    exact hq
  unfold confirmInputListener
  simp only [hget, hq]
  by_cases hv : cf.value = pw.value
  · simp only [hv, bne_self_eq_false, Bool.false_eq_true, if_false, if_true]
    refine ⟨?_, ?_⟩
    · rw [List.getElem?_set_self hklt]
    · have := hfind ""
      rw [hv] at this
      exact this
  · have hne : (cf.value != pw.value) = true := by simpa using hv
    simp only [hne, if_true, hv, if_false]
    refine ⟨?_, hfind _⟩
    rw [List.getElem?_set_self hklt]

/-- C7: in a document that has a field named `password` and a field named
`confirm_password`, after any earlier edits, an input event on the confirmation
field leaves its custom validity message non-empty, namely `Passwords do not
match`, exactly when its value differs from the value of the (first) password
field, and empty when the two values are equal. -/
theorem confirmPassword_spec (doc0 : FormDocument) (edits : List (Nat × String)) (k : Nat)
    (typed : String) (c : InputField)
    (hpw : ∃ f ∈ doc0, f.name = "password")
    (hk : doc0[k]? = some c) (hc : c.name = "confirm_password") :
    let listeners := confirmListeners doc0
    let doc := inputEvent listeners (inputEvents listeners doc0 edits) k typed
    ∃ confirmField passwordField,
      doc[k]? = some confirmField ∧ queryPasswordField doc = some passwordField ∧
      confirmField.value = typed ∧
      (confirmField.customValidity ≠ "" ↔ confirmField.value ≠ passwordField.value) ∧
      (confirmField.value ≠ passwordField.value →
        confirmField.customValidity = "Passwords do not match") ∧
      (confirmField.value = passwordField.value → confirmField.customValidity = "") := by
  intro listeners doc
  have hkL : k ∈ listeners := mem_confirmListeners doc0 k c hpw hk hc
  have hnames := inputEvents_names listeners doc0 edits
  obtain ⟨c1, hc1, hc1n⟩ := getElem?_name_of_names _ doc0 k c hnames hk
  have hklt : k < (inputEvents listeners doc0 edits).length := by
    by_contra h
    rw [List.getElem?_eq_none (by omega)] at hc1
    cases hc1
  -- the document after the edit itself
  have hdoc1 : (match (inputEvents listeners doc0 edits)[k]? with
      | some f => (inputEvents listeners doc0 edits).set k { f with value := typed }
      | none => inputEvents listeners doc0 edits) =
      (inputEvents listeners doc0 edits).set k { c1 with value := typed } := by
    rw [hc1]
  have hdoc : doc = confirmInputListener
      ((inputEvents listeners doc0 edits).set k { c1 with value := typed }) k := by
    simp only [doc, inputEvent, if_pos hkL, hdoc1]
  have hget : ((inputEvents listeners doc0 edits).set k { c1 with value := typed })[k]? =
      some { c1 with value := typed } := by
    rw [List.getElem?_set_self hklt]
  have hnotpw : (c1.name == "password") = false := by
    simp [hc1n, hc]
  have hfind : queryPasswordField
      ((inputEvents listeners doc0 edits).set k { c1 with value := typed }) =
      queryPasswordField (inputEvents listeners doc0 edits) := by
    unfold queryPasswordField
    exact find?_set_of_not _ _ k c1 _ hc1 hnotpw hnotpw
  have hex : ∃ pw, queryPasswordField (inputEvents listeners doc0 edits) = some pw := by
    obtain ⟨f, hf, hfn⟩ := hpw
    have : "password" ∈ (inputEvents listeners doc0 edits).map (fun f => f.name) := by
      rw [hnames]
      exact List.mem_map.mpr ⟨f, hf, hfn⟩
    obtain ⟨g, hg, hgn⟩ := List.mem_map.mp this
    have hsome : (List.find? (fun f => f.name == "password")
        (inputEvents listeners doc0 edits)).isSome = true := by
      rw [List.find?_isSome]
      exact ⟨g, hg, by simpa using hgn⟩
    exact Option.isSome_iff_exists.mp hsome
  obtain ⟨pw, hpwq⟩ := hex
  rw [← hfind] at hpwq
  obtain ⟨h1, h2⟩ := confirmInputListener_spec _ k { c1 with value := typed } pw hget hpwq hnotpw
  rw [← hdoc] at h1 h2
  refine ⟨_, pw, h1, h2, rfl, ?_, ?_, ?_⟩
  · by_cases hv : typed = pw.value <;> simp [hv]
  · intro hv
    have hv2 : ¬ typed = pw.value := hv
    simp [hv2]
  · intro hv
    have hv2 : typed = pw.value := hv
    simp [hv2]

/-- Witness for C7: a password field holding `abc` and an empty confirmation
field into which `abd` is typed. -/
theorem confirmPassword_spec_witness :
    ∃ confirmField passwordField,
      (inputEvent (confirmListeners [⟨"password", "abc", ""⟩, ⟨"confirm_password", "", ""⟩])
        (inputEvents (confirmListeners [⟨"password", "abc", ""⟩, ⟨"confirm_password", "", ""⟩])
          [⟨"password", "abc", ""⟩, ⟨"confirm_password", "", ""⟩] []) 1 "abd")[1]? =
        some confirmField ∧
      queryPasswordField
        (inputEvent (confirmListeners [⟨"password", "abc", ""⟩, ⟨"confirm_password", "", ""⟩])
          (inputEvents (confirmListeners [⟨"password", "abc", ""⟩, ⟨"confirm_password", "", ""⟩])
            [⟨"password", "abc", ""⟩, ⟨"confirm_password", "", ""⟩] []) 1 "abd") =
        some passwordField ∧
      confirmField.value = "abd" ∧
      (confirmField.customValidity ≠ "" ↔ confirmField.value ≠ passwordField.value) ∧
      (confirmField.value ≠ passwordField.value →
        confirmField.customValidity = "Passwords do not match") ∧
      (confirmField.value = passwordField.value → confirmField.customValidity = "") :=
  confirmPassword_spec [⟨"password", "abc", ""⟩, ⟨"confirm_password", "", ""⟩] [] 1 "abd"
    ⟨"confirm_password", "", ""⟩ ⟨⟨"password", "abc", ""⟩, by simp, rfl⟩ rfl rfl

/-! ### Rating widget -/

theorem countP_of_threshold {α : Type} (p : α → Bool) (l : List α) (r : Nat)
    (h : ∀ j (hj : j < l.length), p l[j] = decide (j < r)) :
    l.countP p = min r l.length := by
  induction l generalizing r with
  | nil => simp
  | cons a t ih =>
    have h0 := h 0 (by simp)
    simp only [List.getElem_cons_zero] at h0
    have ht : ∀ j (hj : j < t.length), p t[j] = decide (j < r - 1) := by
      intro j hj
      have := h (j + 1) (by simp; omega)
      simp only [List.getElem_cons_succ] at this
      rw [this]
      by_cases hlt : j + 1 < r
      · have : j < r - 1 := by omega
        simp [hlt, this]
      · have : ¬ j < r - 1 := by omega
        simp [hlt, this]
    rw [List.countP_cons, ih (r - 1) ht, h0]
    by_cases hr : 0 < r
    · simp only [hr, decide_True, if_true, List.length_cons]
      omega
    · have : r = 0 := by omega
      subst this
      simp

theorem starClick_stars (w : RatingWidget) (i : Nat) (v : String) (hin : w.input = some v) :
    (starClick w i).state.stars = w.stars.mapIdx (fun j s =>
      if j < i + 1 then (⟨s.classList.add "filled"⟩ : Star)
      else ⟨s.classList.remove "filled"⟩) := by
  simp [starClick, hin]

/-- C4: in a rating widget with `N` stars and a hidden field, a click on the
star at index `i < N` completes and, whatever the stars carried before, leaves
`filled` on exactly the stars at indices `0..i`, which are `i + 1` stars, and
sets the value of the hidden field to `i + 1`. -/
theorem starClick_spec (w : RatingWidget) (i : Nat) (v : String)
    (hin : w.input = some v) (hi : i < w.stars.length) :
    let r := starClick w i
    r.threw = false ∧
    r.state.stars.length = w.stars.length ∧
    (∀ j (hj : j < r.state.stars.length), (r.state.stars[j]).has "filled" = decide (j ≤ i)) ∧
    r.state.stars.countP (fun s => s.has "filled") = i + 1 ∧
    r.state.input = some (Nat.repr (i + 1)) := by
  intro r
  have hstars := starClick_stars w i v hin
  have hlen : r.state.stars.length = w.stars.length := by
    simp only [r, hstars, List.length_mapIdx]
  have hfilled : ∀ j (hj : j < r.state.stars.length),
      (r.state.stars[j]).has "filled" = decide (j < i + 1) := by
    intro j hj
    have hj2 : j < w.stars.length := hlen ▸ hj
    have : r.state.stars[j] = (if j < i + 1 then (⟨(w.stars[j]).classList.add "filled"⟩ : Star)
        else ⟨(w.stars[j]).classList.remove "filled"⟩) := by
      simp only [r, hstars, List.getElem_mapIdx]
    rw [this]
    by_cases hlt : j < i + 1
    · simp [hlt, Star.has, ClassList.contains_add]
    · simp [hlt, Star.has, ClassList.contains_remove]
  refine ⟨?_, hlen, ?_, ?_, ?_⟩
  · simp [r, starClick, hin]
  · intro j hj
    rw [hfilled j hj]
    by_cases hle : j ≤ i
    · have : j < i + 1 := by omega
      simp [hle, this]
    · have : ¬ j < i + 1 := by omega
      simp [hle, this]
  · rw [countP_of_threshold _ _ (i + 1) hfilled, hlen]
    omega
  · simp [r, starClick, hin]

/-- Witness for C4: three stars, the middle one clicked. -/
theorem starClick_spec_witness :
    (starClick ⟨[⟨⟨[]⟩⟩, ⟨⟨["filled"]⟩⟩, ⟨⟨["filled"]⟩⟩], some ""⟩ 1).state.stars.countP
      (fun s => s.has "filled") = 2 :=
  (starClick_spec ⟨[⟨⟨[]⟩⟩, ⟨⟨["filled"]⟩⟩, ⟨⟨["filled"]⟩⟩], some ""⟩ 1 "" rfl (by decide)).2.2.2.1

/-- C9: a pointer-enter on the star at index `i` gives `hover` to exactly the
stars at indices `0..i` and changes no other state of any star (so not `filled`)
and not the hidden value; a click changes no state of a star other than `filled`
(so not `hover`); after the pointer leaves the container no star carries
`hover`, while every other state of every star and the hidden value are as
before. -/
theorem ratingHover_spec (w : RatingWidget) (i : Nat) :
    ((starMouseenter w i).input = w.input ∧
      (starMouseenter w i).stars.length = w.stars.length ∧
      ∀ j : Nat, ((starMouseenter w i).stars[j]?).map (fun s : Star => s.has "hover") =
          (w.stars[j]?).map (fun _ : Star => decide (j ≤ i)) ∧
        ∀ token : String, token ≠ "hover" →
          ((starMouseenter w i).stars[j]?).map (fun s : Star => s.has token) =
            (w.stars[j]?).map (fun s : Star => s.has token)) ∧
    ((starClick w i).state.stars.length = w.stars.length ∧
      ∀ (j : Nat) (token : String), token ≠ "filled" →
        ((starClick w i).state.stars[j]?).map (fun s : Star => s.has token) =
          (w.stars[j]?).map (fun s : Star => s.has token)) ∧
    ((ratingMouseleave w).input = w.input ∧
      (ratingMouseleave w).stars.length = w.stars.length ∧
      (∀ s ∈ (ratingMouseleave w).stars, s.has "hover" = false) ∧
      ∀ (j : Nat) (token : String), token ≠ "hover" →
        ((ratingMouseleave w).stars[j]?).map (fun s : Star => s.has token) =
          (w.stars[j]?).map (fun s : Star => s.has token)) := by
  refine ⟨⟨rfl, ?_, ?_⟩, ⟨?_, ?_⟩, ⟨rfl, ?_, ?_, ?_⟩⟩
  · simp [starMouseenter]
  · intro j
    simp only [starMouseenter, List.getElem?_mapIdx, Option.map_map]
    cases hj : w.stars[j]? with
    | none => simp
    | some s =>
      refine ⟨?_, ?_⟩
      · by_cases hlt : j < i + 1
        · have : j ≤ i := by omega
          simp [hlt, this, Star.has, ClassList.contains_add]
        · have : ¬ j ≤ i := by omega
          simp [hlt, this, Star.has, ClassList.contains_remove]
      · intro token htok
        by_cases hlt : j < i + 1
        · simp [hlt, Star.has, ClassList.contains_add, htok]
        · simp [hlt, Star.has, ClassList.contains_remove, htok]
  · cases hin : w.input with
    | none => simp [starClick, hin]
    | some v => simp [starClick, hin]
  · intro j token htok
    cases hin : w.input with
    | none => simp [starClick, hin]
    | some v =>
      simp only [starClick, hin, List.getElem?_mapIdx, Option.map_map]
      cases hj : w.stars[j]? with
      | none => simp
      | some s =>
        by_cases hlt : j < i + 1
        · simp [hlt, Star.has, ClassList.contains_add, htok]
        · simp [hlt, Star.has, ClassList.contains_remove, htok]
  · simp [ratingMouseleave]
  · intro s hs
    simp only [ratingMouseleave, List.mem_map] at hs
    obtain ⟨s0, _, rfl⟩ := hs
    simp [Star.has, ClassList.contains_remove]
  · intro j token htok
    simp only [ratingMouseleave, List.getElem?_map, Option.map_map]
    cases hj : w.stars[j]? with
    | none => simp
    | some s => simp [Star.has, ClassList.contains_remove, htok]

/-! ### Client-side search -/

theorem includes_iff (s sub : Str) : includes s sub = true ↔ sub <:+: s := by
  unfold includes
  rw [List.any_eq_true]
  constructor
  · rintro ⟨t, ht, hp⟩
    rw [List.mem_tails] at ht
    rw [List.isPrefixOf_iff_prefix] at hp
    exact List.infix_iff_prefix_suffix.mpr ⟨t, hp, ht⟩
  · intro h
    obtain ⟨t, hp, ht⟩ := List.infix_iff_prefix_suffix.mp h
    exact ⟨t, (List.mem_tails _ _).mpr ht, List.isPrefixOf_iff_prefix.mpr hp⟩

theorem performSearch_skip (toLowerCase : Str → Str) (query : Str) (before rest : List Card)
    (display : Nat → String)
    (hbefore : ∀ c ∈ before, c.title.isSome → c.description.isSome → c.column.isSome) :
    ∃ display1, performSearch toLowerCase query (before ++ rest) display =
      performSearch toLowerCase query rest display1 := by
  induction before generalizing display with
  | nil => exact ⟨display, rfl⟩
  | cons c cs ih =>
    have hcs : ∀ c ∈ cs, c.title.isSome → c.description.isSome → c.column.isSome :=
      fun x hx => hbefore x (List.mem_cons_of_mem _ hx)
    have hc := hbefore c (List.mem_cons_self _ _)
    rcases c with ⟨title, description, column⟩
    cases title with
    | none => simpa [performSearch] using ih display hcs
    | some t =>
      cases description with
      | none => simpa [performSearch] using ih display hcs
      | some d =>
        cases column with
        | none => simp at hc
        | some col =>
          simp only [List.cons_append, performSearch]
          exact ih _ hcs

theorem performSearch_frame (toLowerCase : Str → Str) (query : Str) (after : List Card)
    (display : Nat → String) (col : Nat)
    (hafter : ∀ c ∈ after, c.title.isSome → c.description.isSome → c.column ≠ some col) :
    (performSearch toLowerCase query after display).state col = display col := by
  induction after generalizing display with
  | nil => rfl
  | cons c cs ih =>
    have hcs : ∀ c ∈ cs, c.title.isSome → c.description.isSome → c.column ≠ some col :=
      fun x hx => hafter x (List.mem_cons_of_mem _ hx)
    have hc := hafter c (List.mem_cons_self _ _)
    rcases c with ⟨title, description, column⟩
    cases title with
    | none => simpa [performSearch] using ih display hcs
    | some t =>
      cases description with
      | none => simpa [performSearch] using ih display hcs
      | some d =>
        cases column with
        | none => simp [performSearch]
        | some c2 =>
          have hne : col ≠ c2 := by
            intro h
            subst h
            exact hc rfl rfl rfl
          simp only [performSearch]
          rw [ih _ hcs, Function.update_noteq hne]

theorem performSearch_at (toLowerCase : Str → Str) (query : Str)
    (before : List Card) (card : Card) (after : List Card) (display : Nat → String)
    (t d : Str) (col : Nat)
    (ht : card.title = some t) (hd : card.description = some d) (hc : card.column = some col)
    (hbefore : ∀ c ∈ before, c.title.isSome → c.description.isSome → c.column.isSome)
    (hafter : ∀ c ∈ after, c.title.isSome → c.description.isSome → c.column ≠ some col) :
    (performSearch toLowerCase query (before ++ card :: after) display).state col =
      if (includes (toLowerCase (t ++ [' '] ++ d)) (toLowerCase query) || query == []) = true
      then "block" else "none" := by
  obtain ⟨display1, h1⟩ := performSearch_skip toLowerCase query before (card :: after) display
    hbefore
  rw [h1]
  rcases card with ⟨title, description, column⟩
  simp only at ht hd hc
  subst ht hd hc
  simp only [performSearch]
  rw [performSearch_frame toLowerCase query after _ col hafter, Function.update_same]

/-- C2, as the code has it: let a result card have title text `t`, description
text `d` and grid-column ancestor `col`, let every earlier card with a title
and a description have such an ancestor and no later such card share `col`.
After `performSearch(q)` the display of `col` is `block` exactly when `q` is
empty or the lowercase of `t`, one space and `d` contains the lowercase of `q`,
and `none` otherwise; any query with the same lowercase form as `q` gives the
same display. -/
theorem performSearch_spec (toLowerCase : Str → Str) (q : Str)
    (before : List Card) (card : Card) (after : List Card) (display : Nat → String)
    (t d : Str) (col : Nat)
    (hlower : toLowerCase [] = [])
    (ht : card.title = some t) (hd : card.description = some d) (hc : card.column = some col)
    (hbefore : ∀ c ∈ before, c.title.isSome → c.description.isSome → c.column.isSome)
    (hafter : ∀ c ∈ after, c.title.isSome → c.description.isSome → c.column ≠ some col) :
    let shown := fun query : Str =>
      (performSearch toLowerCase query (before ++ card :: after) display).state col
    let visible := q = [] ∨ toLowerCase q <:+: toLowerCase (t ++ [' '] ++ d)
    (shown q = "block" ↔ visible) ∧
    (¬ visible → shown q = "none") ∧
    (∀ q2 : Str, toLowerCase q2 = toLowerCase q → shown q2 = shown q) := by
  intro shown visible
  have hshown : ∀ query : Str, shown query =
      if (includes (toLowerCase (t ++ [' '] ++ d)) (toLowerCase query) || query == []) = true
      then "block" else "none" := fun query =>
    performSearch_at toLowerCase query before card after display t d col ht hd hc hbefore hafter
  have hcond : ∀ query : Str,
      (includes (toLowerCase (t ++ [' '] ++ d)) (toLowerCase query) || query == []) = true ↔
        (query = [] ∨ toLowerCase query <:+: toLowerCase (t ++ [' '] ++ d)) := by
    intro query
    rw [Bool.or_eq_true, includes_iff, beq_iff_eq]
    exact Or.comm
  have hincl : ∀ query : Str, toLowerCase query = [] →
      includes (toLowerCase (t ++ [' '] ++ d)) (toLowerCase query) = true := by
    intro query h
    rw [includes_iff, h]
    exact List.nil_infix
  refine ⟨?_, ?_, ?_⟩
  · rw [hshown q]
    by_cases h : (includes (toLowerCase (t ++ [' '] ++ d)) (toLowerCase q) || q == []) = true
    · rw [if_pos h]
      exact ⟨fun _ => (hcond q).mp h, fun _ => rfl⟩
    · rw [if_neg h]
      constructor
      · intro hx
        exact absurd hx (by decide)
      · intro hv
        exact absurd ((hcond q).mpr hv) h
  · intro hv
    rw [hshown q, if_neg (fun h => hv ((hcond q).mp h))]
  · intro q2 hq2
    rw [hshown q2, hshown q]
    have : (includes (toLowerCase (t ++ [' '] ++ d)) (toLowerCase q2) || q2 == []) =
        (includes (toLowerCase (t ++ [' '] ++ d)) (toLowerCase q) || q == []) := by
      by_cases h1 : q = []
      · subst h1
        rw [hlower] at hq2
        rw [hincl q2 hq2, hincl [] hlower]
        simp
      · by_cases h2 : q2 = []
        · subst h2
          rw [hlower] at hq2
          rw [hincl [] hlower, hincl q hq2.symm]
          simp
        · rw [hq2]
          cases q with
          | nil => exact absurd rfl h1
          | cons a as =>
            cases q2 with
            | nil => exact absurd rfl h2
            | cons b bs => rfl
    rw [this]

/-- Witness for C2: a single card with title `Web`, description `dev` and the
query `B D`. -/
theorem performSearch_spec_witness :
    ((performSearch asciiToLowerCase ['B', ' ', 'D']
        ([] ++ (⟨some ['W', 'e', 'b'], some ['d', 'e', 'v'], some 0⟩ : Card) :: [])
        (fun _ => "")).state 0 = "block" ↔
      (['B', ' ', 'D'] : Str) = [] ∨
        asciiToLowerCase ['B', ' ', 'D'] <:+:
          asciiToLowerCase (['W', 'e', 'b'] ++ [' '] ++ ['d', 'e', 'v'])) :=
  (performSearch_spec asciiToLowerCase ['B', ' ', 'D'] [] ⟨some ['W', 'e', 'b'],
    some ['d', 'e', 'v'], some 0⟩ [] (fun _ => "") ['W', 'e', 'b'] ['d', 'e', 'v'] 0
    rfl rfl rfl rfl (by simp) (by simp)).1

/-- C2 as stated fails: for a card with title `a` and description `b` and the
query `ab`, the lowercase of the concatenation of title and description is
`ab` and contains the query, yet `performSearch` sets the display of the card
column to `none`, because it matches against `a b`. -/
theorem performSearch_concat_counterexample :
    (asciiToLowerCase ['a', 'b'] <:+: asciiToLowerCase (['a'] ++ ['b'])) ∧
    (performSearch asciiToLowerCase ['a', 'b'] [⟨some ['a'], some ['b'], some 0⟩]
      (fun _ => "block")).state 0 = "none" := by
  refine ⟨by decide, ?_⟩
  decide

/-! ### AJAX form submission -/

theorem hideLoading_spec (element : Control) :
    (hideLoading element).disabled = false ∧
    (hideLoading element).classList.contains "loading" = false := by
  simp [hideLoading, ClassList.contains_remove]

theorem ajaxCatch_button {α : Type} (s : AjaxState α) :
    (ajaxCatch s).submitButton = hideLoading s.submitButton := rfl

/-- C5, as the code has it: for every form with a submit button, every callback
and every way the POST settles, the submit button ends enabled and without the
`loading` state; the callback is invoked only with the payload parsed from a
response, and it is invoked with it whenever the body of the response parses,
whatever the status of the response; when the request fails on the network or
the body cannot be parsed, the callback is not invoked and a `danger` banner
is shown. -/
theorem submitFormAjax_spec {α : Type} (button : Control) (callback : Option (α → Bool))
    (outcome : FetchOutcome α) (shown : List Notification) :
    ∃ s, submitFormAjax (some button) callback outcome shown = .ok s ∧
      s.submitButton.disabled = false ∧
      s.submitButton.classList.contains "loading" = false ∧
      (∀ d ∈ s.callbackCalls, ∃ ok, outcome = .response ok (some d)) ∧
      (∀ ok d cb, outcome = .response ok (some d) → callback = some cb →
        s.callbackCalls = [d]) ∧
      ((outcome = .networkError ∨ ∃ ok, outcome = .response ok none) →
        s.callbackCalls = [] ∧
        s.notifications = shown ++ [⟨"An error occurred. Please try again.", "danger"⟩]) := by
  refine ⟨submitFormAjaxSettle callback outcome ⟨showLoading button, shown, [], 0⟩, rfl, ?_⟩
  cases outcome with
  | networkError =>
    simp [submitFormAjaxSettle, ajaxCatch, hideLoading, ClassList.contains_remove,
      showNotification]
  | response ok json =>
    cases json with
    | none =>
      simp [submitFormAjaxSettle, ajaxCatch, hideLoading, ClassList.contains_remove,
        showNotification]
    | some data =>
      cases callback with
      | none =>
        simp [submitFormAjaxSettle, ajaxThen, hideLoading, ClassList.contains_remove]
      | some cb =>
        cases hcb : cb data <;>
          simp [submitFormAjaxSettle, ajaxThen, ajaxCatch, hideLoading,
            ClassList.contains_remove, hcb]

/-- C5 as stated fails: a response that is not a success (`ok` is false) but
whose body parses, here to the payload `7`, makes `submitFormAjax` invoke the
callback with `7` and show no banner at all. -/
theorem submitFormAjax_nonSuccess_counterexample :
    ∃ s, submitFormAjax (some ⟨⟨[]⟩, false⟩) (some (fun _ : Nat => false))
        (.response false (some 7)) [] = .ok s ∧
      s.callbackCalls = [7] ∧ s.notifications = [] :=
  ⟨_, rfl, rfl, rfl⟩

/-! ### Email validation -/

namespace RegExp

theorem Matches.empty_inv {w : Str} (h : Matches RegExp.empty w) : False := by
  cases h

theorem Matches.epsilon_inv {w : Str} (h : Matches RegExp.epsilon w) : w = [] := by
  cases h; rfl

theorem Matches.cls_inv {p : Char → Bool} {w : Str} (h : Matches (RegExp.cls p) w) :
    ∃ c, w = [c] ∧ p c = true := by
  cases h with
  | cls hp => exact ⟨_, rfl, hp⟩

theorem Matches.alt_inv {a b : RegExp} {w : Str} (h : Matches (RegExp.alt a b) w) :
    Matches a w ∨ Matches b w := by
  cases h with
  | altLeft h => exact Or.inl h
  | altRight h => exact Or.inr h

theorem Matches.seq_inv {a b : RegExp} {w : Str} (h : Matches (RegExp.seq a b) w) :
    ∃ x y, w = x ++ y ∧ Matches a x ∧ Matches b y := by
  cases h with
  | seq h1 h2 => exact ⟨_, _, rfl, h1, h2⟩

theorem Matches.star_cons_inv {r : RegExp} {w : Str} (h : Matches r w) :
    ∀ (a : RegExp) (c : Char) (s : Str), r = RegExp.star a → w = c :: s →
      ∃ x y, s = x ++ y ∧ Matches a (c :: x) ∧ Matches (RegExp.star a) y := by
  induction h with
  | epsilon => intro a c s hr; cases hr
  | cls _ => intro a c s hr; cases hr
  | altLeft _ _ => intro a c s hr; cases hr
  | altRight _ _ => intro a c s hr; cases hr
  | seq _ _ _ _ => intro a c s hr; cases hr
  | starNil => intro a c s _ hw; cases hw
  | @starCons a0 x y h1 h2 _ ih2 =>
    intro a c s hr hw
    cases hr
    cases x with
    | nil =>
      simp only [List.nil_append] at hw
      exact ih2 a0 c s rfl hw
    | cons c0 x0 =>
      simp only [List.cons_append, List.cons.injEq] at hw
      obtain ⟨hc, hs⟩ := hw
      subst hc
      exact ⟨x0, y, hs.symm, h1, h2⟩

theorem nullable_iff (r : RegExp) : nullable r = true ↔ Matches r [] := by
  induction r with
  | empty => exact ⟨fun h => (by cases h), fun h => h.empty_inv.elim⟩
  | epsilon => exact ⟨fun _ => Matches.epsilon, fun _ => rfl⟩
  | cls p =>
    constructor
    · intro h; cases h
    · intro h
      obtain ⟨c, hc, _⟩ := h.cls_inv
      cases hc
  | alt a b iha ihb =>
    simp only [nullable, Bool.or_eq_true, iha, ihb]
    constructor
    · rintro (h | h)
      · exact Matches.altLeft h
      · exact Matches.altRight h
    · intro h; exact h.alt_inv
  | seq a b iha ihb =>
    simp only [nullable, Bool.and_eq_true, iha, ihb]
    constructor
    · rintro ⟨h1, h2⟩
      exact Matches.seq h1 h2
    · intro h
      obtain ⟨x, y, hxy, h1, h2⟩ := h.seq_inv
      have hx : x = [] := (List.append_eq_nil.mp hxy.symm).1
      have hy : y = [] := (List.append_eq_nil.mp hxy.symm).2
      subst hx hy
      exact ⟨h1, h2⟩
  | star a _ => exact ⟨fun _ => Matches.starNil, fun _ => rfl⟩

theorem deriv_iff (r : RegExp) (c : Char) (s : Str) :
    Matches (deriv r c) s ↔ Matches r (c :: s) := by
  induction r generalizing s with
  | empty => exact ⟨fun h => h.empty_inv.elim, fun h => h.empty_inv.elim⟩
  | epsilon =>
    constructor
    · intro h; exact h.empty_inv.elim
    · intro h; cases h.epsilon_inv
  | cls p =>
    simp only [deriv]
    constructor
    · intro h
      by_cases hp : p c = true
      · rw [if_pos hp] at h
        rw [h.epsilon_inv]
        exact Matches.cls hp
      · rw [if_neg hp] at h
        exact h.empty_inv.elim
    · intro h
      obtain ⟨c0, hc, hp⟩ := h.cls_inv
      simp only [List.cons.injEq] at hc
      obtain ⟨rfl, rfl⟩ := hc
      rw [if_pos hp]
      exact Matches.epsilon
  | alt a b iha ihb =>
    simp only [deriv]
    constructor
    · intro h
      rcases h.alt_inv with h | h
      · exact Matches.altLeft ((iha s).mp h)
      · exact Matches.altRight ((ihb s).mp h)
    · intro h
      rcases h.alt_inv with h | h
      · exact Matches.altLeft ((iha s).mpr h)
      · exact Matches.altRight ((ihb s).mpr h)
  | seq a b iha ihb =>
    have hleft : Matches (RegExp.seq (deriv a c) b) s → Matches (RegExp.seq a b) (c :: s) := by
      intro h
      obtain ⟨x, y, hxy, h1, h2⟩ := h.seq_inv
      subst hxy
      exact Matches.seq ((iha x).mp h1) h2
    simp only [deriv]
    constructor
    · intro h
      by_cases hn : nullable a = true
      · rw [if_pos hn] at h
        rcases h.alt_inv with h | h
        · exact hleft h
        · have := Matches.seq ((nullable_iff a).mp hn) ((ihb s).mp h)
          simpa using this
      · rw [if_neg hn] at h
        exact hleft h
    · intro h
      obtain ⟨x, y, hxy, h1, h2⟩ := h.seq_inv
      cases x with
      | nil =>
        simp only [List.nil_append] at hxy
        subst hxy
        have hn : nullable a = true := (nullable_iff a).mpr h1
        rw [if_pos hn]
        exact Matches.altRight ((ihb s).mpr h2)
      | cons c0 x0 =>
        simp only [List.cons_append, List.cons.injEq] at hxy
        obtain ⟨rfl, rfl⟩ := hxy
        have h3 : Matches (RegExp.seq (deriv a c) b) (x0 ++ y) :=
          Matches.seq ((iha x0).mpr h1) h2
        by_cases hn : nullable a = true
        · rw [if_pos hn]; exact Matches.altLeft h3
        · rw [if_neg hn]; exact h3
  | star a iha =>
    simp only [deriv]
    constructor
    · intro h
      obtain ⟨x, y, hxy, h1, h2⟩ := h.seq_inv
      subst hxy
      exact Matches.starCons ((iha x).mp h1) h2
    · intro h
      obtain ⟨x, y, hxy, h1, h2⟩ := h.star_cons_inv a c s rfl rfl
      subst hxy
      exact Matches.seq ((iha x).mpr h1) h2

theorem test_iff (r : RegExp) (s : Str) : test r s = true ↔ Matches r s := by
  induction s generalizing r with
  | nil => exact nullable_iff r
  | cons c s ih =>
    simp only [test]
    rw [ih, deriv_iff]

theorem matches_star_cls (p : Char → Bool) (s : Str) :
    Matches (RegExp.star (RegExp.cls p)) s ↔ ∀ c ∈ s, p c = true := by
  constructor
  · intro h
    induction s with
    | nil => simp
    | cons c s ih =>
      obtain ⟨x, y, hxy, h1, h2⟩ := h.star_cons_inv _ c s rfl rfl
      obtain ⟨c0, hc, hp⟩ := h1.cls_inv
      simp only [List.cons.injEq] at hc
      obtain ⟨rfl, rfl⟩ := hc
      simp only [List.nil_append] at hxy
      subst hxy
      intro d hd
      rcases List.mem_cons.mp hd with rfl | hd
      · exact hp
      · exact ih h2 d hd
  · intro h
    induction s with
    | nil => exact Matches.starNil
    | cons c s ih =>
      have h1 : Matches (RegExp.cls p) [c] := Matches.cls (h c (List.mem_cons_self _ _))
      have h2 := ih (fun d hd => h d (List.mem_cons_of_mem _ hd))
      exact Matches.starCons h1 h2

theorem matches_plus_cls (p : Char → Bool) (s : Str) :
    Matches (plus (RegExp.cls p)) s ↔ s ≠ [] ∧ ∀ c ∈ s, p c = true := by
  unfold plus
  constructor
  · intro h
    obtain ⟨x, y, hxy, h1, h2⟩ := h.seq_inv
    obtain ⟨c0, hc, hp⟩ := h1.cls_inv
    subst hc hxy
    refine ⟨by simp, ?_⟩
    intro d hd
    rcases List.mem_cons.mp hd with rfl | hd
    · exact hp
    · exact (matches_star_cls p y).mp h2 d hd
  · rintro ⟨hne, h⟩
    cases s with
    | nil => exact absurd rfl hne
    | cons c s =>
      have h1 : Matches (RegExp.cls p) [c] := Matches.cls (h c (List.mem_cons_self _ _))
      have h2 := (matches_star_cls p s).mpr (fun d hd => h d (List.mem_cons_of_mem _ hd))
      exact Matches.seq h1 h2

theorem matches_chr_seq (c : Char) (r : RegExp) (s : Str) :
    Matches (RegExp.seq (chr c) r) s ↔ ∃ y, s = c :: y ∧ Matches r y := by
  unfold chr
  constructor
  · intro h
    obtain ⟨x, y, hxy, h1, h2⟩ := h.seq_inv
    obtain ⟨c0, hc, hp⟩ := h1.cls_inv
    have : c0 = c := by simpa using hp
    subst this hc hxy
    exact ⟨y, rfl, h2⟩
  · rintro ⟨y, rfl, h⟩
    have h1 : Matches (RegExp.cls (fun x => x == c)) [c] := Matches.cls (by simp)
    exact Matches.seq h1 h

end RegExp

/-- The strings `emailRegex` accepts: three non-empty runs of characters that
are neither white space nor `@`, the first two separated by `@` and the last
two by a dot. -/
theorem emailRegex_test_iff (v : Str) :
    emailRegex.test v = true ↔
      ∃ a b c : Str, a ≠ [] ∧ b ≠ [] ∧ c ≠ [] ∧
        (∀ x ∈ a ++ b ++ c, isRegexSpace x = false ∧ x ≠ '@') ∧
        v = a ++ '@' :: (b ++ '.' :: c) := by
  have hcls : ∀ x : Char, notSpaceOrAt x = true ↔ (isRegexSpace x = false ∧ x ≠ '@') := by
    intro x
    simp [notSpaceOrAt]
  rw [RegExp.test_iff]
  unfold emailRegex
  constructor
  · intro h
    obtain ⟨a, r1, hv, ha, h1⟩ := h.seq_inv
    obtain ⟨r2, hr1, h2⟩ := (RegExp.matches_chr_seq _ _ _).mp h1
    obtain ⟨b, r3, hr2, hb, h3⟩ := h2.seq_inv
    obtain ⟨c, hr3, hc⟩ := (RegExp.matches_chr_seq _ _ _).mp h3
    obtain ⟨hane, hap⟩ := (RegExp.matches_plus_cls _ _).mp ha
    obtain ⟨hbne, hbp⟩ := (RegExp.matches_plus_cls _ _).mp hb
    obtain ⟨hcne, hcp⟩ := (RegExp.matches_plus_cls _ _).mp hc
    refine ⟨a, b, c, hane, hbne, hcne, ?_, ?_⟩
    · intro x hx
      rw [List.mem_append, List.mem_append] at hx
      rcases hx with (hx | hx) | hx
      · exact (hcls x).mp (hap x hx)
      · exact (hcls x).mp (hbp x hx)
      · exact (hcls x).mp (hcp x hx)
    · rw [hv, hr1, hr2, hr3]
  · rintro ⟨a, b, c, hane, hbne, hcne, hall, rfl⟩
    have ha : RegExp.Matches (RegExp.plus (RegExp.cls notSpaceOrAt)) a :=
      (RegExp.matches_plus_cls _ _).mpr ⟨hane, fun x hx =>
        (hcls x).mpr (hall x (by simp [hx]))⟩
    have hb : RegExp.Matches (RegExp.plus (RegExp.cls notSpaceOrAt)) b :=
      (RegExp.matches_plus_cls _ _).mpr ⟨hbne, fun x hx =>
        (hcls x).mpr (hall x (by simp [hx]))⟩
    have hc : RegExp.Matches (RegExp.plus (RegExp.cls notSpaceOrAt)) c :=
      (RegExp.matches_plus_cls _ _).mpr ⟨hcne, fun x hx =>
        (hcls x).mpr (hall x (by simp [hx]))⟩
    refine RegExp.Matches.seq ha ?_
    refine (RegExp.matches_chr_seq _ _ _).mpr ⟨_, rfl, ?_⟩
    refine RegExp.Matches.seq hb ?_
    exact (RegExp.matches_chr_seq _ _ _).mpr ⟨_, rfl, hc⟩

/-- C8, as the code has it: `validateEmail` returns true exactly when the value
is a non-empty run, an `@`, a non-empty run, a dot and a non-empty run, where
the runs consist of characters that are neither white space nor `@`; for a
non-empty value the field ends with `is-invalid` set and `is-valid` cleared
when the value does not match, and with `is-invalid` cleared and `is-valid` set
when it does; for an empty value the function returns false and leaves the
field as it was. -/
theorem validateEmail_spec (field : EmailField) :
    let r := validateEmail field
    (r.returned = true ↔
      ∃ a b c : Str, a ≠ [] ∧ b ≠ [] ∧ c ≠ [] ∧
        (∀ x ∈ a ++ b ++ c, isRegexSpace x = false ∧ x ≠ '@') ∧
        field.value = a ++ '@' :: (b ++ '.' :: c)) ∧
    (field.value ≠ [] → r.returned = false →
      r.field.classList.contains "is-invalid" = true ∧
      r.field.classList.contains "is-valid" = false) ∧
    (field.value ≠ [] → r.returned = true →
      r.field.classList.contains "is-invalid" = false ∧
      r.field.classList.contains "is-valid" = true) ∧
    (field.value = [] → r.returned = false ∧ r.field = field) ∧
    r.field.value = field.value := by
  intro r
  have hret : r.returned = emailRegex.test field.value := by
    simp only [r, validateEmail]
    split
    · rfl
    · split <;> rfl
  refine ⟨?_, ?_, ?_, ?_, ?_⟩
  · rw [hret]
    exact emailRegex_test_iff field.value
  · intro hne hfalse
    rw [hret] at hfalse
    simp [r, validateEmail, hne, hfalse, ClassList.contains_remove, ClassList.contains_add]
  · intro hne htrue
    rw [hret] at htrue
    simp [r, validateEmail, hne, htrue, ClassList.contains_remove, ClassList.contains_add]
  · intro hempty
    refine ⟨?_, ?_⟩
    · rw [hret, hempty]
      rfl
    · simp [r, validateEmail, hempty]
  · simp only [r, validateEmail]
    split
    · rfl
    · split <;> rfl

/-- C8 as stated fails: `a@@b.c` is a non-empty run of non-whitespace
characters (`a`), an `@`, a non-empty run of non-whitespace characters (`@b`),
a dot and a non-empty run of non-whitespace characters (`c`), yet
`validateEmail` returns false for it and flags the field invalid. -/
theorem validateEmail_at_counterexample :
    (∃ a b c : Str, a ≠ [] ∧ b ≠ [] ∧ c ≠ [] ∧
      (∀ x ∈ a ++ b ++ c, isRegexSpace x = false) ∧
      ['a', '@', '@', 'b', '.', 'c'] = a ++ '@' :: (b ++ '.' :: c)) ∧
    (validateEmail ⟨['a', '@', '@', 'b', '.', 'c'], ⟨[]⟩⟩).returned = false ∧
    (validateEmail ⟨['a', '@', '@', 'b', '.', 'c'], ⟨[]⟩⟩).field.classList.contains
      "is-invalid" = true := by
  refine ⟨⟨['a'], ['@', 'b'], ['c'], by simp, by simp, by simp, by decide, rfl⟩, ?_, ?_⟩
  · decide
  · decide


/-! ### Counter animation -/

theorem isDigit_digitChar (d : Nat) (h : d < 10) : (Nat.digitChar d).isDigit = true := by
  interval_cases d <;> decide

theorem isDigit_of_mem_toDigitsCore (fuel n : Nat) (ds : List Char)
    (hds : ∀ c ∈ ds, c.isDigit = true) :
    ∀ c ∈ Nat.toDigitsCore 10 fuel n ds, c.isDigit = true := by
  induction fuel generalizing n ds with
  | zero => simpa [Nat.toDigitsCore] using hds
  | succ fuel ih =>
    have hd : (Nat.digitChar (n % 10)).isDigit = true :=
      isDigit_digitChar _ (Nat.mod_lt _ (by decide))
    have hcons : ∀ c ∈ Nat.digitChar (n % 10) :: ds, c.isDigit = true := by
      intro c hc
      rcases List.mem_cons.mp hc with rfl | hc
      · exact hd
      · exact hds c hc
    simp only [Nat.toDigitsCore]
    split
    · exact hcons
    · exact ih _ _ hcons

theorem isDigit_of_mem_toDigits (m : Nat) : ∀ c ∈ Nat.toDigits 10 m, c.isDigit = true :=
  isDigit_of_mem_toDigitsCore _ _ _ (by simp)

theorem length_toDigitsCore_le (fuel n j : Nat) (ds : List Char) (hj : 1 ≤ j)
    (hn : n < 10 ^ j) (hfuel : n < fuel) :
    (Nat.toDigitsCore 10 fuel n ds).length ≤ ds.length + j := by
  induction fuel generalizing n j ds with
  | zero => omega
  | succ fuel ih =>
    simp only [Nat.toDigitsCore]
    split
    · simp only [List.length_cons]
      omega
    · rename_i hne
      have hn10 : 10 ≤ n := by
        by_contra h
        exact hne (Nat.div_eq_of_lt (by omega))
      have hj2 : 2 ≤ j := by
        by_contra h
        have : j = 1 := by omega
        subst this
        omega
      have hdiv : n / 10 < 10 ^ (j - 1) := by
        rw [Nat.div_lt_iff_lt_mul (by decide)]
        have : 10 ^ (j - 1) * 10 = 10 ^ j := by
          rw [← pow_succ]
          congr 1
          omega
        omega
      have := ih (n / 10) (j - 1) (Nat.digitChar (n % 10) :: ds) (by omega) hdiv
        (by
          have : n / 10 < n := Nat.div_lt_self (by omega) (by decide)
          omega)
      simp only [List.length_cons] at this
      omega

theorem digitCount_le (v j : Nat) (hj : 1 ≤ j) (hv : v < 10 ^ j) : digitCount v ≤ j := by
  have := length_toDigitsCore_le (v + 1) v j [] hj hv (by omega)
  simpa [digitCount, Nat.toDigits] using this

theorem significand_append_zeros (ds : List Char) :
    significand ds ++ List.replicate (ds.length - (significand ds).length) '0' = ds := by
  unfold significand
  have hsplit := List.takeWhile_append_dropWhile (fun c => c == '0') ds.reverse
  have hzero : ∀ c ∈ List.takeWhile (fun c => c == '0') ds.reverse, c = '0' := by
    intro c hc
    have := List.mem_takeWhile_imp hc
    simpa using this
  have hrep : List.takeWhile (fun c => c == '0') ds.reverse =
      List.replicate (List.takeWhile (fun c => c == '0') ds.reverse).length '0' :=
    List.eq_replicate_iff.mpr ⟨rfl, hzero⟩
  have hlen : ds.length = (List.takeWhile (fun c => c == '0') ds.reverse).length +
      (List.dropWhile (fun c => c == '0') ds.reverse).length := by
    rw [← List.length_append, hsplit, List.length_reverse]
  have hds : ds = (List.dropWhile (fun c => c == '0') ds.reverse).reverse ++
      (List.takeWhile (fun c => c == '0') ds.reverse).reverse := by
    rw [← List.reverse_append, hsplit, List.reverse_reverse]
  rw [List.length_reverse]
  have hk : ds.length - (List.dropWhile (fun c => c == '0') ds.reverse).length =
      (List.takeWhile (fun c => c == '0') ds.reverse).length := by omega
  rw [hk]
  conv_rhs => rw [hds]
  congr 1
  conv_rhs => rw [hrep]
  rw [List.reverse_replicate]

theorem formatDecimal_of_lt (v : Nat) (hv : v < 10 ^ 21) :
    formatDecimal v = Nat.toDigits 10 v := by
  have hn : (Nat.toDigits 10 v).length ≤ 21 := digitCount_le v 21 (by decide) hv
  unfold formatDecimal
  simp only [hn, if_true]
  exact significand_append_zeros _

theorem pick_mem (x p : Nat) (l : List Nat) (v : Nat) (h : pick x p l = some v) : v ∈ l := by
  match l, h with
  | [w], h =>
    simp only [pick, Option.some.injEq] at h
    simp [h]
  | lo :: hi :: rest, h =>
    simp only [pick] at h
    split_ifs at h <;> simp only [Option.some.injEq] at h <;> simp [← h]

theorem shortestFrom_rounds (fl : ℚ → ℚ) (x fuel k : Nat) :
    shortestFrom fl x fuel k = x ∨ fl ((shortestFrom fl x fuel k : Nat) : ℚ) = (x : ℚ) := by
  induction fuel generalizing k with
  | zero => exact Or.inl rfl
  | succ fuel ih =>
    simp only [shortestFrom]
    split
    · rename_i v hv
      have hmem := pick_mem _ _ _ _ hv
      simp only [accepted, List.mem_filter, decide_eq_true_eq] at hmem
      exact Or.inr hmem.2
    · exact ih (k + 1)

theorem fl_natural (fl : ℚ → ℚ) (hfl : Rounding fl) (v m e : Nat) (hv : v = m * 2 ^ e)
    (hm : m < 2 ^ 53) : fl (v : ℚ) = (v : ℚ) := by
  have := hfl.exact m e hm
  rw [hv]
  push_cast
  exact this

theorem shortest_lt (fl : ℚ → ℚ) (hfl : Rounding fl) (x : Nat) (hx : x < 10 ^ 21) :
    shortest fl x < 10 ^ 21 := by
  rcases shortestFrom_rounds fl x (digitCount x) 1 with h | h
  · unfold shortest
    rw [h]
    exact hx
  · by_contra hge
    have hge2 : (10 : ℚ) ^ 21 ≤ ((shortest fl x : Nat) : ℚ) := by
      have : 10 ^ 21 ≤ shortest fl x := by omega
      exact_mod_cast this
    have h1 := hfl.mono _ _ hge2
    have h2 : fl ((10 : ℚ) ^ 21) = 10 ^ 21 := by
      have := fl_natural fl hfl (10 ^ 21) (5 ^ 21) 21 (by norm_num) (by norm_num)
      exact_mod_cast this
    rw [h2] at h1
    have h3 : ((shortest fl x : Nat) : ℚ) = ((shortestFrom fl x (digitCount x) 1 : Nat) : ℚ) := rfl
    rw [h3, h] at h1
    have : (10 : ℕ) ^ 21 ≤ x := by exact_mod_cast h1
    omega

theorem shortest_safe (fl : ℚ → ℚ) (hfl : Rounding fl) (x : Nat) (hx : x < 2 ^ 53) :
    shortest fl x = x := by
  rcases shortestFrom_rounds fl x (digitCount x) 1 with h | h
  · exact h
  · show shortestFrom fl x (digitCount x) 1 = x
    generalize shortestFrom fl x (digitCount x) 1 = v at h
    by_cases hv : v < 2 ^ 53
    · have := fl_natural fl hfl v v 0 (by simp) hv
      rw [this] at h
      exact_mod_cast h
    · have hge : (2 : ℚ) ^ 53 ≤ (v : ℚ) := by
        have : 2 ^ 53 ≤ v := by omega
        exact_mod_cast this
      have h1 := hfl.mono _ _ hge
      have h2 : fl ((2 : ℚ) ^ 53) = 2 ^ 53 := by
        have := fl_natural fl hfl (2 ^ 53) 1 53 (by norm_num) (by norm_num)
        exact_mod_cast this
      rw [h2, h] at h1
      have : (2 : ℕ) ^ 53 ≤ x := by exact_mod_cast h1
      omega

theorem naturalToString_isDigit (fl : ℚ → ℚ) (hfl : Rounding fl) (x : Nat) (hx : x < 10 ^ 21) :
    ∀ c ∈ naturalToString fl x, c.isDigit = true := by
  unfold naturalToString
  split
  · intro c hc
    simp only [List.mem_singleton] at hc
    subst hc
    decide
  · rw [formatDecimal_of_lt _ (shortest_lt fl hfl x hx)]
    exact isDigit_of_mem_toDigits _

theorem naturalToString_safe (fl : ℚ → ℚ) (hfl : Rounding fl) (x : Nat) (hx : x < 2 ^ 53) :
    naturalToString fl x = (Nat.repr x).toList := by
  unfold naturalToString
  split
  · rename_i h0
    subst h0
    rfl
  · rw [shortest_safe fl hfl x hx, formatDecimal_of_lt x (by
      have : (2 : ℕ) ^ 53 < 10 ^ 21 := by norm_num
      omega)]
    rfl

theorem stripDigits_digits_append (ds t : Str) (hds : ∀ c ∈ ds, c.isDigit = true) :
    stripDigits (ds ++ stripDigits t) = stripDigits t := by
  unfold stripDigits
  rw [List.filter_append, List.filter_filter]
  have h1 : List.filter (fun c => !c.isDigit) ds = [] := by
    rw [List.filter_eq_nil_iff]
    intro c hc
    simp [hds c hc]
  rw [h1]
  simp

theorem fl_bounds (fl : ℚ → ℚ) (hfl : Rounding fl) (x : ℚ) (hx : 1 / 2 ^ 1022 ≤ x) :
    999 / 1000 * x ≤ fl x ∧ fl x ≤ 1001 / 1000 * x := by
  have h := abs_le.mp (hfl.error x hx)
  have hx0 : 0 ≤ x := le_trans (by positivity) hx
  have hsmall : x / 2 ^ 53 ≤ x / 1000 := by
    apply div_le_div_of_nonneg_left hx0 (by norm_num) (by norm_num)
  constructor <;> linarith [h.1, h.2]

theorem fl_zero (fl : ℚ → ℚ) (hfl : Rounding fl) : fl 0 = 0 := by
  have := hfl.exact 0 0 (by norm_num)
  simpa using this

theorem fl_duration (fl : ℚ → ℚ) (hfl : Rounding fl) : fl (2000 / 16) = 125 := by
  have := hfl.exact 125 0 (by norm_num)
  norm_num at this ⊢
  exact this

theorem maxDouble_large : (10 : ℚ) ^ 23 ≤ maxDouble := by
  unfold maxDouble
  norm_num

theorem fl_growth (fl : ℚ → ℚ) (hfl : Rounding fl) (T : Nat) (c : ℚ)
    (hc0 : 0 ≤ c) (hcT : c ≤ T) :
    0 ≤ fl ((T : ℚ) / 125) ∧ fl ((T : ℚ) / 125) ≤ 2 * T ∧
    0 ≤ fl (c + fl ((T : ℚ) / 125)) ∧
    c + (T : ℚ) / 250 ≤ fl (c + fl ((T : ℚ) / 125)) ∧
    fl (c + fl ((T : ℚ) / 125)) ≤ 2 * T := by
  rcases Nat.eq_zero_or_pos T with h0 | hpos
  · subst h0
    have hc : c = 0 := by
      have : c ≤ 0 := by simpa using hcT
      linarith
    subst hc
    simp [fl_zero fl hfl]
  · have hT1 : (1 : ℚ) ≤ T := by exact_mod_cast hpos
    have htiny : (1 : ℚ) / 2 ^ 1022 ≤ 1 / 250 := by
      apply div_le_div_of_nonneg_left (by norm_num) (by norm_num) (by norm_num)
    have hq : (1 : ℚ) / 2 ^ 1022 ≤ (T : ℚ) / 125 := by
      have : (1 : ℚ) / 250 ≤ (T : ℚ) / 125 := by linarith
      linarith
    have hinc := fl_bounds fl hfl _ hq
    have hsum := fl_bounds fl hfl (c + fl ((T : ℚ) / 125)) (by linarith [hinc.1])
    refine ⟨by linarith [hinc.1], by linarith [hinc.2], by linarith [hsum.1, hinc.1],
      by linarith [hsum.1, hinc.1], by linarith [hsum.2, hinc.2]⟩

theorem round_of_le (fl : ℚ → ℚ) (x : ℚ) (h : fl x ≤ maxDouble) :
    Num.round fl x = .fin (fl x) := by
  simp [Num.round, h]

theorem parseInt_le (fl : ℚ → ℚ) (s : Str) (q : ℚ) (h : parseInt fl s = .fin q) :
    q ≤ maxDouble := by
  unfold parseInt at h
  split at h
  · cases h
  · unfold Num.round at h
    split at h
    · rename_i hle
      cases h
      exact hle
    · cases h

theorem animateCounter_fields (fl : ℚ → ℚ) (hfl : Rounding fl) (text : Str) (T : Nat)
    (hT : parseInt fl (stripNonDigits text) = .fin T) (hbound : (T : ℚ) ≤ 10 ^ 22) :
    animateCounter fl text =
      { target := .fin T, increment := .fin (fl ((T : ℚ) / 125)),
        current := .fin 0, timer := true, textContent := text } := by
  have hmax := maxDouble_large
  have hd : Num.div fl (.fin 2000) (.fin 16) = .fin 125 := by
    have h16 : (16 : ℚ) ≠ 0 := by norm_num
    simp only [Num.div, h16, if_false]
    rw [round_of_le fl _ (by rw [fl_duration fl hfl]; linarith), fl_duration fl hfl]
  have hg := fl_growth fl hfl T 0 le_rfl (by positivity)
  have hi : Num.div fl (.fin T) (.fin 125) = .fin (fl ((T : ℚ) / 125)) := by
    have h125 : (125 : ℚ) ≠ 0 := by norm_num
    simp only [Num.div, h125, if_false]
    exact round_of_le fl _ (by linarith [hg.2.1])
  simp only [animateCounter, hT, hd, hi]

theorem formatted_floor (fl : ℚ → ℚ) (x : ℚ) (hx : 0 ≤ x) :
    formattedToString fl (Num.floor (.fin x)) = naturalToString fl (Int.toNat ⌊x⌋) := by
  have h0 : (0 : ℤ) ≤ ⌊x⌋ := Int.floor_nonneg.mpr hx
  have h1 : ¬ ((⌊x⌋ : ℤ) : ℚ) < 0 := by
    have : (0 : ℚ) ≤ ((⌊x⌋ : ℤ) : ℚ) := by exact_mod_cast h0
    linarith
  simp only [Num.floor, formattedToString, h1, if_false, Int.floor_intCast]

theorem counterTick_reached (fl : ℚ → ℚ) (a : CounterAnimation) (T : Nat) (inc c : ℚ)
    (ht : a.target = .fin T) (hi : a.increment = .fin inc) (hc : a.current = .fin c)
    (hmax : fl (c + inc) ≤ maxDouble) (hr : (T : ℚ) ≤ fl (c + inc)) :
    counterTick fl a = { a with
      current := .fin T, timer := false,
      textContent := naturalToString fl T ++ stripDigits a.textContent } := by
  have hf := formatted_floor fl (T : ℚ) (by positivity)
  simp only [Int.floor_natCast, Int.toNat_ofNat] at hf
  simp only [counterTick, ht, hi, hc, Num.add, round_of_le fl _ hmax, Num.ge, hr, decide_True,
    if_true, hf]

theorem counterTick_running (fl : ℚ → ℚ) (a : CounterAnimation) (T : Nat) (inc c : ℚ)
    (ht : a.target = .fin T) (hi : a.increment = .fin inc) (hc : a.current = .fin c)
    (hmax : fl (c + inc) ≤ maxDouble) (h0 : 0 ≤ fl (c + inc)) (hr : ¬ (T : ℚ) ≤ fl (c + inc)) :
    counterTick fl a = { a with
      current := .fin (fl (c + inc)),
      textContent := naturalToString fl (Int.toNat ⌊fl (c + inc)⌋) ++
        stripDigits a.textContent } := by
  have hf := formatted_floor fl (fl (c + inc)) h0
  simp only [counterTick, ht, hi, hc, Num.add, round_of_le fl _ hmax, Num.ge, hr, decide_False]
  simp [hf]

theorem afterTicks_succ (fl : ℚ → ℚ) (text : Str) (k : Nat) :
    afterTicks fl text (k + 1) = intervalElapses fl (afterTicks fl text k) := by
  unfold afterTicks
  rw [Function.iterate_succ_apply']

theorem afterTicks_settled (fl : ℚ → ℚ) (text : Str) (k : Nat)
    (h : (afterTicks fl text k).timer = false) (j : Nat) :
    afterTicks fl text (k + j) = afterTicks fl text k := by
  induction j with
  | zero => rfl
  | succ j ih =>
    rw [← Nat.add_assoc, afterTicks_succ, ih]
    simp [intervalElapses, h]

theorem counter_invariant (fl : ℚ → ℚ) (hfl : Rounding fl) (text : Str) (T : Nat)
    (hT : parseInt fl (stripNonDigits text) = .fin T) (hbound : T < 10 ^ 21) (k : Nat) :
    let a := afterTicks fl text k
    a.target = .fin T ∧ a.increment = .fin (fl ((T : ℚ) / 125)) ∧
    stripDigits a.textContent = stripDigits text ∧
    (a.timer = true → ∃ c : ℚ, a.current = .fin c ∧ 0 ≤ c ∧ c ≤ T ∧
      (k : ℚ) * ((T : ℚ) / 250) ≤ c ∧
      (1 ≤ k → c < T ∧ ∃ m : Nat, m ≤ T ∧
        a.textContent = naturalToString fl m ++ stripDigits text)) ∧
    (a.timer = false → a.textContent = naturalToString fl T ++ stripDigits text) := by
  have hTq : (T : ℚ) ≤ 10 ^ 22 := by
    have : T ≤ 10 ^ 22 := by omega
    exact_mod_cast this
  have hmax := maxDouble_large
  induction k with
  | zero =>
    have h0 : afterTicks fl text 0 = animateCounter fl text := rfl
    rw [h0, animateCounter_fields fl hfl text T hT hTq]
    refine ⟨rfl, rfl, rfl, ?_, ?_⟩
    · intro _
      exact ⟨0, rfl, le_rfl, by positivity, by simp, by intro h; omega⟩
    · intro h; cases h
  | succ k ih =>
    obtain ⟨htar, hinc, hsuf, hrun, hstop⟩ := ih
    simp only [afterTicks_succ]
    generalize afterTicks fl text k = a at htar hinc hsuf hrun hstop
    cases htimer : a.timer with
    | false =>
      have hsame : intervalElapses fl a = a := by simp [intervalElapses, htimer]
      rw [hsame]
      refine ⟨htar, hinc, hsuf, ?_, hstop⟩
      intro h
      rw [htimer] at h
      cases h
    | true =>
      obtain ⟨c, hcur, hc0, hcT, hck, _⟩ := hrun htimer
      have hstep : intervalElapses fl a = counterTick fl a := by simp [intervalElapses, htimer]
      rw [hstep]
      obtain ⟨_, _, hpos, hgrow, hup⟩ := fl_growth fl hfl T c hc0 hcT
      have hle : fl (c + fl ((T : ℚ) / 125)) ≤ maxDouble := by linarith
      by_cases hr : (T : ℚ) ≤ fl (c + fl ((T : ℚ) / 125))
      · rw [counterTick_reached fl a T _ c htar hinc hcur hle hr]
        refine ⟨htar, hinc, ?_, ?_, ?_⟩
        · simp only [hsuf]
          exact stripDigits_digits_append _ text (naturalToString_isDigit fl hfl T hbound)
        · intro h; cases h
        · intro _
          simp only [hsuf]
      · rw [counterTick_running fl a T _ c htar hinc hcur hle hpos hr]
        have hlt : fl (c + fl ((T : ℚ) / 125)) < T := lt_of_not_le hr
        have hfloor0 : 0 ≤ ⌊fl (c + fl ((T : ℚ) / 125))⌋ := Int.floor_nonneg.mpr hpos
        have hmT : Int.toNat ⌊fl (c + fl ((T : ℚ) / 125))⌋ ≤ T := by
          have h1 : ((⌊fl (c + fl ((T : ℚ) / 125))⌋ : ℤ) : ℚ) ≤ fl (c + fl ((T : ℚ) / 125)) :=
            Int.floor_le _
          have h2 : ((⌊fl (c + fl ((T : ℚ) / 125))⌋ : ℤ) : ℚ) < ((T : ℤ) : ℚ) := by
            have : ((T : ℤ) : ℚ) = (T : ℚ) := by simp
            rw [this]
            linarith
          have h3 : ⌊fl (c + fl ((T : ℚ) / 125))⌋ < (T : ℤ) := by exact_mod_cast h2
          omega
        refine ⟨htar, hinc, ?_, ?_, ?_⟩
        · simp only [hsuf]
          exact stripDigits_digits_append _ text
            (naturalToString_isDigit fl hfl _ (by omega))
        · intro _
          refine ⟨_, rfl, hpos, hlt.le, ?_, ?_⟩
          · push_cast
            linarith
          · intro _
            refine ⟨hlt, _, hmT, ?_⟩
            simp only [hsuf]
        · intro h
          simp only at h
          rw [htimer] at h
          cases h

theorem stripDigits_keeps_tail (text tail : Str) (htail : tail <:+ text)
    (hnon : ∀ c ∈ tail, c.isDigit = false) : tail <:+ stripDigits text := by
  obtain ⟨pre, rfl⟩ := htail
  unfold stripDigits
  rw [List.filter_append]
  have : List.filter (fun c => !c.isDigit) tail = tail := by
    rw [List.filter_eq_self]
    intro c hc
    simp [hnon c hc]
  rw [this]
  exact List.suffix_append _ _

/-- C3, as the code has it: let the digits of the text of a stat heading parse
to an integer target `T` below `10^21`, and let the arithmetic on numbers round
as doubles do. Then the count-up settles: there is a tick `n`, at most the
250th, at which the interval timer is cleared and before which it is running;
from that tick on the text is the string conversion of `T` followed by the
non-digit characters of the initial text; at every earlier tick the text is
the string conversion of an integer `m ≤ T` followed by the same characters.
These string conversions consist of digits only, and are the decimal numerals
of `T` and `m` when `T` is below `2^53`. So at every tick each run of non-digit
characters that ends the initial text still ends the text. -/
theorem animateCounter_spec (fl : ℚ → ℚ) (hfl : Rounding fl)
    (text : Str) (T : Nat) (hT : parseInt fl (stripNonDigits text) = .fin T)
    (hbound : T < 10 ^ 21) :
    ∃ n : Nat, 1 ≤ n ∧ n ≤ 250 ∧
      (∀ k, k < n → (afterTicks fl text k).timer = true) ∧
      (∀ k, n ≤ k → (afterTicks fl text k).timer = false ∧
        (afterTicks fl text k).textContent = naturalToString fl T ++ stripDigits text) ∧
      (∀ k, 1 ≤ k → k < n → ∃ m : Nat, m ≤ T ∧
        (afterTicks fl text k).textContent = naturalToString fl m ++ stripDigits text) ∧
      (∀ m : Nat, m ≤ T → ∀ c ∈ naturalToString fl m, c.isDigit = true) ∧
      (T < 2 ^ 53 → ∀ m : Nat, m ≤ T → naturalToString fl m = (Nat.repr m).toList) ∧
      (∀ k, 1 ≤ k → ∀ tail : Str, tail <:+ text → (∀ c ∈ tail, c.isDigit = false) →
        tail <:+ (afterTicks fl text k).textContent) := by
  have hinv := counter_invariant fl hfl text T hT hbound
  have h250 : (afterTicks fl text 250).timer = false := by
    cases h : (afterTicks fl text 250).timer with
    | false => rfl
    | true =>
      obtain ⟨_, _, _, hrun, _⟩ := hinv 250
      obtain ⟨c, _, _, _, hck, hlt⟩ := hrun h
      obtain ⟨hcT, _⟩ := hlt (by norm_num)
      push_cast at hck
      linarith
  have hex : ∃ k, (afterTicks fl text k).timer = false := ⟨250, h250⟩
  have hrunning : ∀ k, k < Nat.find hex → (afterTicks fl text k).timer = true := by
    intro k hk
    have := Nat.find_min hex hk
    simpa using this
  have hTq : (T : ℚ) ≤ 10 ^ 22 := by
    have : T ≤ 10 ^ 22 := by omega
    exact_mod_cast this
  have hn1 : 1 ≤ Nat.find hex := by
    rcases Nat.eq_zero_or_pos (Nat.find hex) with h0 | hpos
    · have h := Nat.find_spec hex
      rw [h0] at h
      have h00 : afterTicks fl text 0 = animateCounter fl text := rfl
      rw [h00, animateCounter_fields fl hfl text T hT hTq] at h
      cases h
    · exact hpos
  have hsettled : ∀ k, Nat.find hex ≤ k → (afterTicks fl text k).timer = false ∧
      (afterTicks fl text k).textContent = naturalToString fl T ++ stripDigits text := by
    intro k hk
    obtain ⟨j, rfl⟩ := Nat.exists_eq_add_of_le hk
    rw [afterTicks_settled fl text _ (Nat.find_spec hex) j]
    obtain ⟨_, _, _, _, hstop⟩ := hinv (Nat.find hex)
    exact ⟨Nat.find_spec hex, hstop (Nat.find_spec hex)⟩
  have hbefore : ∀ k, 1 ≤ k → k < Nat.find hex → ∃ m : Nat, m ≤ T ∧
      (afterTicks fl text k).textContent = naturalToString fl m ++ stripDigits text := by
    intro k hk1 hk
    obtain ⟨_, _, _, hrun, _⟩ := hinv k
    obtain ⟨c, _, _, _, _, hlt⟩ := hrun (hrunning k hk)
    exact (hlt hk1).2
  refine ⟨Nat.find hex, hn1, Nat.find_min' hex h250, hrunning, hsettled, hbefore, ?_, ?_, ?_⟩
  · intro m hm
    exact naturalToString_isDigit fl hfl m (by omega)
  · intro hsafe m hm
    exact naturalToString_safe fl hfl m (by omega)
  · intro k hk1 tail htail hnon
    have hs := stripDigits_keeps_tail text tail htail hnon
    by_cases hk : k < Nat.find hex
    · obtain ⟨m, _, hm⟩ := hbefore k hk1 hk
      rw [hm]
      exact hs.trans (List.suffix_append _ _)
    · rw [(hsettled k (by omega)).2]
      exact hs.trans (List.suffix_append _ _)

theorem rounding_id : Rounding id where
  exact := fun _ _ _ => rfl
  mono := fun _ _ h => h
  error := by
    intro x hx
    have hx0 : 0 ≤ x := le_trans (by positivity) hx
    simp only [id, sub_self, abs_zero]
    positivity

/-- Witness for C3: exact arithmetic and the heading text `250+`. -/
theorem animateCounter_spec_witness :
    ∃ n : Nat, 1 ≤ n ∧ n ≤ 250 ∧
      (∀ k, k < n → (afterTicks id ['2', '5', '0', '+'] k).timer = true) ∧
      (∀ k, n ≤ k → (afterTicks id ['2', '5', '0', '+'] k).timer = false ∧
        (afterTicks id ['2', '5', '0', '+'] k).textContent =
          naturalToString id 250 ++ stripDigits ['2', '5', '0', '+']) ∧
      (∀ k, 1 ≤ k → k < n → ∃ m : Nat, m ≤ 250 ∧
        (afterTicks id ['2', '5', '0', '+'] k).textContent =
          naturalToString id m ++ stripDigits ['2', '5', '0', '+']) ∧
      (∀ m : Nat, m ≤ 250 → ∀ c ∈ naturalToString id m, c.isDigit = true) ∧
      (250 < 2 ^ 53 → ∀ m : Nat, m ≤ 250 → naturalToString id m = (Nat.repr m).toList) ∧
      (∀ k, 1 ≤ k → ∀ tail : Str, tail <:+ ['2', '5', '0', '+'] →
        (∀ c ∈ tail, c.isDigit = false) →
        tail <:+ (afterTicks id ['2', '5', '0', '+'] k).textContent) :=
  animateCounter_spec id rounding_id ['2', '5', '0', '+'] 250
    (by
      have h1 : stripNonDigits ['2', '5', '0', '+'] = ['2', '5', '0'] := by decide
      have h2 : decimalValue ['2', '5', '0'] = 250 := by decide
      have h3 : (250 : ℚ) ≤ maxDouble := le_trans (by norm_num) maxDouble_large
      simp [parseInt, h1, h2, Num.round, h3])
    (by norm_num)

theorem shortestFrom_skip (fl : ℚ → ℚ) (x fuel k : Nat)
    (h : ∀ v ∈ candidates x k, fl (v : ℚ) ≠ (x : ℚ)) :
    shortestFrom fl x (fuel + 1) k = shortestFrom fl x fuel (k + 1) := by
  have hacc : accepted fl x k = [] := by
    unfold accepted
    rw [List.filter_eq_nil_iff]
    intro v hv
    simpa using h v hv
  simp only [shortestFrom, hacc, pick]

theorem shortestFrom_hit (fl : ℚ → ℚ) (x fuel k : Nat)
    (hdiv : x / 10 ^ (digitCount x - k) * 10 ^ (digitCount x - k) = x)
    (hx : fl (x : ℚ) = (x : ℚ)) :
    shortestFrom fl x (fuel + 1) k = x := by
  have hp : 0 < 10 ^ (digitCount x - k) := by positivity
  have hhi : x < (x / 10 ^ (digitCount x - k) + 1) * 10 ^ (digitCount x - k) := by
    rw [Nat.add_mul, hdiv]
    omega
  have hcand : candidates x k = [x, (x / 10 ^ (digitCount x - k) + 1) *
      10 ^ (digitCount x - k)] := by
    simp only [candidates, hdiv]
  simp only [shortestFrom, accepted, hcand]
  generalize (x / 10 ^ (digitCount x - k) + 1) * 10 ^ (digitCount x - k) = hi at hhi
  generalize 10 ^ (digitCount x - k) = p
  by_cases hacc : fl (hi : ℚ) = (x : ℚ)
  · have hlt : x - x < hi - x := by omega
    simp only [List.filter, hx, hacc, decide_True, pick, hlt, if_true]
  · simp only [List.filter, hx, hacc, decide_True, decide_False, pick]

theorem fl_ne_of_exact (fl : ℚ → ℚ) (hfl : Rounding fl) (x v m e : Nat) (hv : v = m * 2 ^ e)
    (hm : m < 2 ^ 53) (hne : v ≠ x) : fl (v : ℚ) ≠ (x : ℚ) := by
  rw [fl_natural fl hfl v m e hv hm]
  exact_mod_cast hne

theorem naturalToString_104 (fl : ℚ → ℚ) (hfl : Rounding fl) :
    naturalToString fl 1040000000000000000000 =
      ['1', '.', '0', '4', 'e', '+', '2', '1'] := by
  have hn : digitCount 1040000000000000000000 = 22 := by decide
  have hx : fl ((1040000000000000000000 : Nat) : ℚ) = ((1040000000000000000000 : Nat) : ℚ) :=
    fl_natural fl hfl _ (104 * 5 ^ 19) 19 (by norm_num) (by norm_num)
  have h1 : ∀ v ∈ candidates 1040000000000000000000 1,
      fl (v : ℚ) ≠ ((1040000000000000000000 : Nat) : ℚ) := by
    have hc : candidates 1040000000000000000000 1 =
        [1000000000000000000000, 2000000000000000000000] := by decide
    rw [hc]
    intro v hv
    simp only [List.mem_cons, List.mem_singleton, List.not_mem_nil, or_false] at hv
    rcases hv with rfl | rfl
    · exact fl_ne_of_exact fl hfl _ _ (5 ^ 21) 21 (by norm_num) (by norm_num) (by norm_num)
    · exact fl_ne_of_exact fl hfl _ _ (5 ^ 21) 22 (by norm_num) (by norm_num) (by norm_num)
  have h2 : ∀ v ∈ candidates 1040000000000000000000 2,
      fl (v : ℚ) ≠ ((1040000000000000000000 : Nat) : ℚ) := by
    have hc : candidates 1040000000000000000000 2 =
        [1000000000000000000000, 1100000000000000000000] := by decide
    rw [hc]
    intro v hv
    simp only [List.mem_cons, List.mem_singleton, List.not_mem_nil, or_false] at hv
    rcases hv with rfl | rfl
    · exact fl_ne_of_exact fl hfl _ _ (5 ^ 21) 21 (by norm_num) (by norm_num) (by norm_num)
    · exact fl_ne_of_exact fl hfl _ _ (11 * 5 ^ 20) 20 (by norm_num) (by norm_num)
        (by norm_num)
  have hs : shortest fl 1040000000000000000000 = 1040000000000000000000 := by
    unfold shortest
    rw [hn, shortestFrom_skip fl _ 21 1 h1, shortestFrom_skip fl _ 20 2 h2,
      shortestFrom_hit fl _ 19 3 (by decide) hx]
  unfold naturalToString
  rw [if_neg (by norm_num), hs]
  decide

theorem naturalToString_112 (fl : ℚ → ℚ) (hfl : Rounding fl) :
    naturalToString fl 1120000000000000000000 =
      ['1', '.', '1', '2', 'e', '+', '2', '1'] := by
  have hn : digitCount 1120000000000000000000 = 22 := by decide
  have hx : fl ((1120000000000000000000 : Nat) : ℚ) = ((1120000000000000000000 : Nat) : ℚ) :=
    fl_natural fl hfl _ (112 * 5 ^ 19) 19 (by norm_num) (by norm_num)
  have h1 : ∀ v ∈ candidates 1120000000000000000000 1,
      fl (v : ℚ) ≠ ((1120000000000000000000 : Nat) : ℚ) := by
    have hc : candidates 1120000000000000000000 1 =
        [1000000000000000000000, 2000000000000000000000] := by decide
    rw [hc]
    intro v hv
    simp only [List.mem_cons, List.mem_singleton, List.not_mem_nil, or_false] at hv
    rcases hv with rfl | rfl
    · exact fl_ne_of_exact fl hfl _ _ (5 ^ 21) 21 (by norm_num) (by norm_num) (by norm_num)
    · exact fl_ne_of_exact fl hfl _ _ (5 ^ 21) 22 (by norm_num) (by norm_num) (by norm_num)
  have h2 : ∀ v ∈ candidates 1120000000000000000000 2,
      fl (v : ℚ) ≠ ((1120000000000000000000 : Nat) : ℚ) := by
    have hc : candidates 1120000000000000000000 2 =
        [1100000000000000000000, 1200000000000000000000] := by decide
    rw [hc]
    intro v hv
    simp only [List.mem_cons, List.mem_singleton, List.not_mem_nil, or_false] at hv
    rcases hv with rfl | rfl
    · exact fl_ne_of_exact fl hfl _ _ (11 * 5 ^ 20) 20 (by norm_num) (by norm_num)
        (by norm_num)
    · exact fl_ne_of_exact fl hfl _ _ (12 * 5 ^ 20) 20 (by norm_num) (by norm_num)
        (by norm_num)
  have hs : shortest fl 1120000000000000000000 = 1120000000000000000000 := by
    unfold shortest
    rw [hn, shortestFrom_skip fl _ 21 1 h1, shortestFrom_skip fl _ 20 2 h2,
      shortestFrom_hit fl _ 19 3 (by decide) hx]
  unfold naturalToString
  rw [if_neg (by norm_num), hs]
  decide

theorem largeHeading_step (fl : ℚ → ℚ) (hfl : Rounding fl) (a : CounterAnimation) (k : Nat)
    (hk : k < 14) (ht : a.target = .fin ((10 ^ 22 : Nat) : ℚ))
    (hi : a.increment = .fin 80000000000000000000)
    (hc : a.current = .fin ((k : ℚ) * 80000000000000000000)) (htimer : a.timer = true) :
    intervalElapses fl a = { a with
      current := .fin (((k + 1 : Nat) : ℚ) * 80000000000000000000),
      textContent := naturalToString fl ((k + 1) * 80000000000000000000) ++
        stripDigits a.textContent } := by
  have hm : (k + 1) * 5 ^ 19 < 2 ^ 53 := by
    have : (k + 1) * 5 ^ 19 ≤ 14 * 5 ^ 19 := Nat.mul_le_mul_right _ (by omega)
    have h2 : 14 * 5 ^ 19 < 2 ^ 53 := by norm_num
    omega
  have hfl1 : fl ((k : ℚ) * 80000000000000000000 + 80000000000000000000) =
      (((k + 1) * 80000000000000000000 : Nat) : ℚ) := by
    have := hfl.exact ((k + 1) * 5 ^ 19) 22 hm
    have e : (((k + 1) * 5 ^ 19 : Nat) : ℚ) * 2 ^ 22 =
        (k : ℚ) * 80000000000000000000 + 80000000000000000000 := by
      push_cast
      ring
    rw [e] at this
    rw [this]
    push_cast
    ring
  have hkq : ((k + 1 : Nat) : ℚ) ≤ 14 := by
    have : k + 1 ≤ 14 := by omega
    exact_mod_cast this
  have hval : (((k + 1) * 80000000000000000000 : Nat) : ℚ) =
      ((k + 1 : Nat) : ℚ) * 80000000000000000000 := by
    push_cast
    ring
  have hmax : fl ((k : ℚ) * 80000000000000000000 + 80000000000000000000) ≤ maxDouble := by
    rw [hfl1, hval]
    have := maxDouble_large
    nlinarith
  have h0 : 0 ≤ fl ((k : ℚ) * 80000000000000000000 + 80000000000000000000) := by
    rw [hfl1]
    positivity
  have hr : ¬ (((10 ^ 22 : Nat) : ℚ)) ≤
      fl ((k : ℚ) * 80000000000000000000 + 80000000000000000000) := by
    rw [hfl1, hval]
    push_cast
    intro h
    have hkq2 : (k : ℚ) + 1 ≤ 14 := by exact_mod_cast hkq
    linarith
  have hstep : intervalElapses fl a = counterTick fl a := by simp [intervalElapses, htimer]
  rw [hstep, counterTick_running fl a (10 ^ 22) _ _ ht hi hc hmax h0 hr, hfl1,
    Int.floor_natCast, Int.toNat_ofNat, hval]

theorem largeHeading_start (fl : ℚ → ℚ) (hfl : Rounding fl) :
    parseInt fl (stripNonDigits largeHeading) = .fin ((10 ^ 22 : Nat) : ℚ) ∧
    animateCounter fl largeHeading =
      { target := .fin ((10 ^ 22 : Nat) : ℚ), increment := .fin 80000000000000000000,
        current := .fin 0, timer := true, textContent := largeHeading } := by
  have h1 : stripNonDigits largeHeading ≠ [] := by decide
  have h2 : decimalValue (stripNonDigits largeHeading) = 10 ^ 22 := by decide
  have h3 : fl (((10 ^ 22 : Nat) : ℚ)) = ((10 ^ 22 : Nat) : ℚ) :=
    fl_natural fl hfl _ (5 ^ 22) 22 (by norm_num) (by norm_num)
  have h4 : ((10 ^ 22 : Nat) : ℚ) ≤ maxDouble := by
    have := maxDouble_large
    push_cast
    linarith
  have hparse : parseInt fl (stripNonDigits largeHeading) = .fin ((10 ^ 22 : Nat) : ℚ) := by
    unfold parseInt
    rw [if_neg h1, h2, round_of_le fl _ (by rw [h3]; exact h4), h3]
  have hinc : fl (((10 ^ 22 : Nat) : ℚ) / 125) = 80000000000000000000 := by
    have := hfl.exact (5 ^ 19) 22 (by norm_num)
    norm_num at this ⊢
    exact this
  refine ⟨hparse, ?_⟩
  rw [animateCounter_fields fl hfl largeHeading (10 ^ 22) hparse (by push_cast; norm_num), hinc]

theorem largeHeading_invariant (fl : ℚ → ℚ) (hfl : Rounding fl) (k : Nat) (hk : k ≤ 12) :
    let a := afterTicks fl largeHeading k
    a.target = .fin ((10 ^ 22 : Nat) : ℚ) ∧ a.increment = .fin 80000000000000000000 ∧
    a.current = .fin ((k : ℚ) * 80000000000000000000) ∧ a.timer = true ∧
    stripDigits a.textContent = ['+'] := by
  induction k with
  | zero =>
    have h0 : afterTicks fl largeHeading 0 = animateCounter fl largeHeading := rfl
    rw [h0, (largeHeading_start fl hfl).2]
    refine ⟨rfl, rfl, ?_, rfl, by decide⟩
    simp
  | succ k ih =>
    obtain ⟨ht, hi, hc, htimer, hsuf⟩ := ih (by omega)
    simp only [afterTicks_succ]
    rw [largeHeading_step fl hfl _ k (by omega) ht hi hc htimer]
    refine ⟨ht, hi, rfl, htimer, ?_⟩
    simp only [hsuf]
    have hdig := naturalToString_isDigit fl hfl ((k + 1) * 80000000000000000000) (by
      have : (k + 1) * 80000000000000000000 ≤ 12 * 80000000000000000000 :=
        Nat.mul_le_mul_right _ (by omega)
      have h2 : 12 * 80000000000000000000 < 10 ^ 21 := by norm_num
      omega)
    have hplus : (['+'] : Str) = stripDigits ['+'] := by decide
    rw [hplus]
    exact stripDigits_digits_append _ _ hdig

/-- C3 as stated fails for large targets: the heading `10^22` followed by a
plus sign parses to the integer `10^22`, and for every rounding that behaves as
that of doubles the count-up is still running at the 14th tick, where the text
is `1.12e+21.e++`. What follows the number `1.12e+21` there is `.e++`, not the
suffix `+` of the initial text, because the exponent notation of the previous
tick has entered the suffix. -/
theorem animateCounter_large_counterexample :
    Rounding id ∧
    ∀ fl : ℚ → ℚ, Rounding fl →
      parseInt fl (stripNonDigits largeHeading) = .fin ((10 ^ 22 : Nat) : ℚ) ∧
      stripDigits largeHeading = ['+'] ∧
      (afterTicks fl largeHeading 14).timer = true ∧
      (afterTicks fl largeHeading 14).textContent =
        ['1', '.', '1', '2', 'e', '+', '2', '1'] ++ ['.', 'e', '+', '+'] := by
  refine ⟨rounding_id, ?_⟩
  intro fl hfl
  obtain ⟨ht, hi, hc, htimer, hsuf⟩ := largeHeading_invariant fl hfl 12 le_rfl
  have h13 := largeHeading_step fl hfl _ 12 (by norm_num) ht hi hc htimer
  rw [← afterTicks_succ] at h13
  have h14 := largeHeading_step fl hfl (afterTicks fl largeHeading 13) 13 (by norm_num)
    (by rw [h13]; exact ht) (by rw [h13]; exact hi) (by rw [h13])
    (by rw [h13]; exact htimer)
  rw [← afterTicks_succ] at h14
  have e13 : (afterTicks fl largeHeading 13).textContent =
      ['1', '.', '0', '4', 'e', '+', '2', '1', '+'] := by
    rw [h13]
    simp only [hsuf]
    have : (12 + 1) * 80000000000000000000 = 1040000000000000000000 := by norm_num
    rw [this, naturalToString_104 fl hfl]
    rfl
  refine ⟨(largeHeading_start fl hfl).1, by decide, ?_, ?_⟩
  · rw [h14]
    simp only
    rw [h13]
    exact htimer
  · rw [h14]
    simp only
    rw [e13]
    have : (13 + 1) * 80000000000000000000 = 1120000000000000000000 := by norm_num
    rw [this, naturalToString_112 fl hfl]
    decide

/-! ### Search debounce -/

theorem foldl_fireTimer (l : List Timer) (s : SearchPage) :
    l.foldl fireTimer s =
      { s with searches := s.searches ++ l.map (fun t => ⟨s.now, t.input, s.value t.input⟩) } := by
  induction l generalizing s with
  | nil => simp
  | cons t ts ih =>
    rw [List.foldl_cons, ih]
    simp [fireTimer]

theorem searchStep_tick (s : SearchPage) :
    searchStep s .tick =
      { s with
        now := s.now + 1
        timers := s.timers.filter (fun t => !decide (t.due ≤ s.now + 1))
        searches := s.searches ++
          (s.timers.filter (fun t => decide (t.due ≤ s.now + 1))).map
            (fun t => ⟨s.now + 1, t.input, s.value t.input⟩) } := by
  simp only [searchStep]
  rw [foldl_fireTimer]

theorem searchStep_input (s : SearchPage) (k : Nat) (typed : Str) :
    searchStep s (.input k typed) =
      { now := s.now, nextTimerId := s.nextTimerId + 1,
        timers := clearTimeout s.timers (s.searchTimeout k) ++
          [⟨s.nextTimerId, k, s.now + debounceDelay⟩],
        searchTimeout := Function.update s.searchTimeout k (some s.nextTimerId),
        value := Function.update s.value k typed,
        searches := s.searches } := rfl

theorem mem_clearTimeout {timers : List Timer} {handle : Option Nat} {t : Timer}
    (h : t ∈ clearTimeout timers handle) : t ∈ timers ∧ handle ≠ some t.id := by
  cases handle with
  | none => exact ⟨h, by simp⟩
  | some i =>
    simp only [clearTimeout, List.mem_filter, bne_iff_ne, ne_eq] at h
    refine ⟨h.1, ?_⟩
    intro hi
    cases hi
    exact h.2 rfl

theorem consistent_initial (value : Nat → Str) : (SearchPage.initial value).Consistent where
  owner := by intro t ht; cases ht
  issued := by intro j i h; cases h
  distinct := by intro j1 j2 i h; cases h

theorem consistent_step (s : SearchPage) (hs : s.Consistent) (e : SearchEvent) :
    (searchStep s e).Consistent := by
  cases e with
  | tick =>
    rw [searchStep_tick]
    exact { owner := fun t ht => hs.owner t (List.mem_filter.mp ht).1
            issued := hs.issued
            distinct := hs.distinct }
  | input k typed =>
    rw [searchStep_input]
    refine { owner := ?_, issued := ?_, distinct := ?_ }
    · intro t ht
      simp only [List.mem_append, List.mem_singleton] at ht
      rcases ht with ht | rfl
      · obtain ⟨hmem, hne⟩ := mem_clearTimeout ht
        have hown := hs.owner t hmem
        have hk : t.input ≠ k := by
          intro h
          rw [h] at hown
          exact hne hown
        simp only [Function.update_noteq hk]
        exact hown
      · simp
    · intro j i h
      by_cases hj : j = k
      · subst hj
        simp only [Function.update_same, Option.some.injEq] at h
        show i < s.nextTimerId + 1
        omega
      · simp only [Function.update_noteq hj] at h
        have := hs.issued j i h
        show i < s.nextTimerId + 1
        omega
    · intro j1 j2 i h1 h2
      by_cases hj1 : j1 = k
      · by_cases hj2 : j2 = k
        · rw [hj1, hj2]
        · subst hj1
          simp only [Function.update_same, Option.some.injEq] at h1
          simp only [Function.update_noteq hj2] at h2
          have := hs.issued j2 i h2
          omega
      · by_cases hj2 : j2 = k
        · subst hj2
          simp only [Function.update_same, Option.some.injEq] at h2
          simp only [Function.update_noteq hj1] at h1
          have := hs.issued j1 i h1
          omega
        · simp only [Function.update_noteq hj1] at h1
          simp only [Function.update_noteq hj2] at h2
          exact hs.distinct j1 j2 i h1 h2

theorem consistent_run (events : List SearchEvent) (s : SearchPage) (hs : s.Consistent) :
    (searchRun events s).Consistent := by
  induction events generalizing s with
  | nil => exact hs
  | cons e es ih => exact ih _ (consistent_step s hs e)

theorem timersOf_input_self (s : SearchPage) (hs : s.Consistent) (k : Nat) (typed : Str) :
    (searchStep s (.input k typed)).timersOf k =
      [⟨s.nextTimerId, k, s.now + debounceDelay⟩] := by
  rw [searchStep_input]
  simp only [SearchPage.timersOf, List.filter_append]
  have hnil : (clearTimeout s.timers (s.searchTimeout k)).filter (fun t => t.input == k) = [] := by
    rw [List.filter_eq_nil_iff]
    intro t ht
    obtain ⟨hmem, hne⟩ := mem_clearTimeout ht
    have hown := hs.owner t hmem
    intro hk
    have hk2 : t.input = k := by simpa using hk
    rw [hk2] at hown
    exact hne hown
  rw [hnil]
  simp

theorem timersOf_input_other (s : SearchPage) (hs : s.Consistent) (k j : Nat) (typed : Str)
    (hj : j ≠ k) :
    (searchStep s (.input k typed)).timersOf j = s.timersOf j := by
  rw [searchStep_input]
  simp only [SearchPage.timersOf, List.filter_append]
  have hnew : List.filter (fun t : Timer => t.input == j)
      [⟨s.nextTimerId, k, s.now + debounceDelay⟩] = [] := by
    have : (k == j) = false := by simpa using fun h : k = j => hj h.symm
    simp [List.filter, this]
  rw [hnew, List.append_nil]
  cases hh : s.searchTimeout k with
  | none => rfl
  | some i =>
    simp only [clearTimeout, List.filter_filter]
    apply List.filter_congr
    intro t ht
    by_cases htj : t.input = j
    · have hown := hs.owner t ht
      have hid : t.id ≠ i := by
        intro hi
        rw [hi, htj] at hown
        exact hj (hs.distinct j k i hown hh)
      simp [htj, hid]
    · simp [htj]

theorem searchesOf_input (s : SearchPage) (k j : Nat) (typed : Str) :
    (searchStep s (.input k typed)).searchesOf j = s.searchesOf j := rfl

theorem timersOf_tick (s : SearchPage) (k : Nat) :
    (searchStep s .tick).timersOf k =
      (s.timersOf k).filter (fun t => !decide (t.due ≤ s.now + 1)) := by
  rw [searchStep_tick]
  simp only [SearchPage.timersOf, List.filter_filter]
  apply List.filter_congr
  intro t _
  exact Bool.and_comm _ _

theorem searchesOf_tick (s : SearchPage) (k : Nat) :
    (searchStep s .tick).searchesOf k = s.searchesOf k ++
      ((s.timersOf k).filter (fun t => decide (t.due ≤ s.now + 1))).map
        (fun _ => ⟨s.now + 1, k, s.value k⟩) := by
  rw [searchStep_tick]
  simp only [SearchPage.searchesOf, SearchPage.timersOf, List.filter_append, List.filter_map,
    List.filter_filter]
  congr 1
  have hfilter : List.filter
      (fun a : Timer =>
        ((fun r : SearchRun => r.input == k) ∘
          fun t : Timer => (⟨s.now + 1, t.input, s.value t.input⟩ : SearchRun)) a &&
            decide (a.due ≤ s.now + 1)) s.timers =
      List.filter (fun a => decide (a.due ≤ s.now + 1) && (a.input == k)) s.timers := by
    apply List.filter_congr
    intro t _
    exact Bool.and_comm _ _
  rw [hfilter]
  apply List.map_congr_left
  intro t ht
  have hk : t.input = k := by
    have := (List.mem_filter.mp ht).2
    simp only [Bool.and_eq_true, beq_iff_eq] at this
    exact this.2
  rw [hk]

theorem mem_timersOf {s : SearchPage} {k : Nat} {t : Timer} :
    t ∈ s.timersOf k ↔ t ∈ s.timers ∧ t.input = k := by
  simp [SearchPage.timersOf, List.mem_filter]

theorem elapsed_cons_tick (events : List SearchEvent) :
    elapsed (.tick :: events) = elapsed events + 1 := by
  simp [elapsed]

theorem elapsed_cons_input (k : Nat) (typed : Str) (events : List SearchEvent) :
    elapsed (.input k typed :: events) = elapsed events := by
  simp [elapsed]

theorem elapsed_append (a b : List SearchEvent) : elapsed (a ++ b) = elapsed a + elapsed b := by
  simp [elapsed, List.countP_append]

theorem searchRun_append (a b : List SearchEvent) (s : SearchPage) :
    searchRun (a ++ b) s = searchRun b (searchRun a s) := by
  simp [searchRun, List.foldl_append]

theorem searchRun_cons (e : SearchEvent) (es : List SearchEvent) (s : SearchPage) :
    searchRun (e :: es) s = searchRun es (searchStep s e) := rfl

theorem no_search_before_due (k D : Nat) (mid : List SearchEvent) (s : SearchPage)
    (hdue : ∀ t ∈ s.timersOf k, D ≤ t.due) (hD : D ≤ s.now + debounceDelay)
    (hmid : s.now + elapsed mid < D) :
    (searchRun mid s).searchesOf k = s.searchesOf k := by
  induction mid generalizing s with
  | nil => rfl
  | cons e es ih =>
    rw [searchRun_cons]
    cases e with
    | input j typed =>
      rw [elapsed_cons_input] at hmid
      rw [ih (searchStep s (.input j typed)) ?_ hD hmid, searchesOf_input]
      intro t ht
      rw [mem_timersOf, searchStep_input] at ht
      obtain ⟨hmem, hk⟩ := ht
      simp only [List.mem_append, List.mem_singleton] at hmem
      rcases hmem with hmem | rfl
      · exact hdue t (mem_timersOf.mpr ⟨(mem_clearTimeout hmem).1, hk⟩)
      · exact hD
    | tick =>
      rw [elapsed_cons_tick] at hmid
      have hnow : (searchStep s .tick).now = s.now + 1 := by rw [searchStep_tick]
      have hnone : (s.timersOf k).filter (fun t => decide (t.due ≤ s.now + 1)) = [] := by
        rw [List.filter_eq_nil_iff]
        intro t ht
        have := hdue t ht
        simp only [decide_eq_true_eq, not_le]
        omega
      rw [ih (searchStep s .tick) ?_ (by rw [hnow]; omega) (by rw [hnow]; omega),
        searchesOf_tick, hnone]
      · simp
      · intro t ht
        rw [timersOf_tick] at ht
        exact hdue t (List.mem_filter.mp ht).1

theorem quiet_run (k : Nat) (mid : List SearchEvent) (s : SearchPage) (hs : s.Consistent)
    (hquiet : ∀ e ∈ mid, e.isInputOn k = false)
    (hdue : ∀ t ∈ s.timersOf k, s.now + elapsed mid < t.due) :
    (searchRun mid s).timersOf k = s.timersOf k ∧
    (searchRun mid s).value k = s.value k ∧
    (searchRun mid s).searchesOf k = s.searchesOf k ∧
    (searchRun mid s).now = s.now + elapsed mid := by
  induction mid generalizing s with
  | nil => exact ⟨rfl, rfl, rfl, rfl⟩
  | cons e es ih =>
    have hes : ∀ e ∈ es, e.isInputOn k = false := fun x hx => hquiet x (List.mem_cons_of_mem _ hx)
    have he := hquiet e (List.mem_cons_self _ _)
    rw [searchRun_cons]
    cases e with
    | input j typed =>
      have hj : j ≠ k := by simpa [SearchEvent.isInputOn] using he
      rw [elapsed_cons_input] at hdue ⊢
      have htim := timersOf_input_other s hs j k typed (Ne.symm hj)
      have hval : (searchStep s (.input j typed)).value k = s.value k := by
        rw [searchStep_input]
        exact Function.update_noteq (Ne.symm hj) _ _
      have hnow : (searchStep s (.input j typed)).now = s.now := rfl
      obtain ⟨h1, h2, h3, h4⟩ := ih (searchStep s (.input j typed))
        (consistent_step s hs _) hes (by rw [htim, hnow]; exact hdue)
      exact ⟨h1.trans htim, h2.trans hval, h3.trans (searchesOf_input s j k typed),
        h4.trans (by rw [hnow])⟩
    | tick =>
      rw [elapsed_cons_tick] at hdue ⊢
      have hnow : (searchStep s .tick).now = s.now + 1 := by rw [searchStep_tick]
      have hval : (searchStep s .tick).value k = s.value k := by rw [searchStep_tick]
      have hkeep : (s.timersOf k).filter (fun t => !decide (t.due ≤ s.now + 1)) =
          s.timersOf k := by
        rw [List.filter_eq_self]
        intro t ht
        have := hdue t ht
        simp only [Bool.not_eq_true', decide_eq_false_iff_not, not_le]
        omega
      have hnone : (s.timersOf k).filter (fun t => decide (t.due ≤ s.now + 1)) = [] := by
        rw [List.filter_eq_nil_iff]
        intro t ht
        have := hdue t ht
        simp only [decide_eq_true_eq, not_le]
        omega
      have htim : (searchStep s .tick).timersOf k = s.timersOf k := by
        rw [timersOf_tick, hkeep]
      have hsea : (searchStep s .tick).searchesOf k = s.searchesOf k := by
        rw [searchesOf_tick, hnone]
        simp
      obtain ⟨h1, h2, h3, h4⟩ := ih (searchStep s .tick) (consistent_step s hs _) hes
        (by
          intro t ht
          rw [htim] at ht
          have := hdue t ht
          rw [hnow]
          omega)
      exact ⟨h1.trans htim, h2.trans hval, h3.trans hsea, h4.trans (by rw [hnow]; omega)⟩

theorem fire_due (s : SearchPage) (k : Nat) (t : Timer)
    (htim : s.timersOf k = [t]) (hdue : t.due = s.now + 1) :
    (searchStep s .tick).timersOf k = [] ∧
    (searchStep s .tick).searchesOf k = s.searchesOf k ++ [⟨s.now + 1, k, s.value k⟩] := by
  rw [timersOf_tick, searchesOf_tick, htim]
  simp [List.filter, hdue]

/-- C10: take any history of input events and passing milliseconds on the
search inputs and then an input event on input `k` at time `t`. The event
leaves input `k` with exactly one pending timer, due at `t + 300`, so that an
earlier pending timer of `k` is cancelled, and it leaves the pending timers of
every other input as they were. As long as fewer than 300 ms have passed since
the event, whatever else happens, `performSearch` is not run for input `k`.
If 300 ms pass without a further input event on `k`, whatever happens on other
inputs, `performSearch` runs for `k` exactly once: at `t + 300`, with the value
typed last, and not again until the next input event on `k`. -/
theorem searchDebounce_spec (value : Nat → Str) (history : List SearchEvent) (k : Nat)
    (typed : Str) :
    let s := searchRun history (SearchPage.initial value)
    let s1 := searchStep s (.input k typed)
    s1.timersOf k = [⟨s.nextTimerId, k, s.now + 300⟩] ∧
    (∀ j, j ≠ k → s1.timersOf j = s.timersOf j) ∧
    (∀ mid, elapsed mid < 300 → (searchRun mid s1).searchesOf k = s.searchesOf k) ∧
    (∀ mid, elapsed mid = 299 → (∀ e ∈ mid, e.isInputOn k = false) →
      (searchRun (mid ++ [.tick]) s1).searchesOf k =
        s.searchesOf k ++ [⟨s.now + 300, k, typed⟩] ∧
      ∀ later, (∀ e ∈ later, e.isInputOn k = false) →
        (searchRun (mid ++ [.tick] ++ later) s1).searchesOf k =
          s.searchesOf k ++ [⟨s.now + 300, k, typed⟩]) := by
  intro s s1
  have hs : s.Consistent := consistent_run history _ (consistent_initial value)
  have hs1 : s1.Consistent := consistent_step s hs _
  have htim : s1.timersOf k = [⟨s.nextTimerId, k, s.now + 300⟩] :=
    timersOf_input_self s hs k typed
  have hnow1 : s1.now = s.now := rfl
  have hval1 : s1.value k = typed := by
    simp only [s1, searchStep_input, Function.update_same]
  have hsea1 : s1.searchesOf k = s.searchesOf k := rfl
  refine ⟨htim, fun j hj => timersOf_input_other s hs k j typed hj, ?_, ?_⟩
  · intro mid hmid
    rw [no_search_before_due k (s.now + 300) mid s1 ?_ ?_ ?_, hsea1]
    · intro t ht
      rw [htim, List.mem_singleton] at ht
      rw [ht]
    · rw [hnow1]; exact le_rfl
    · rw [hnow1]; omega
  · intro mid hmid hquiet
    obtain ⟨q1, q2, q3, q4⟩ := quiet_run k mid s1 hs1 hquiet (by
      intro t ht
      rw [htim, List.mem_singleton] at ht
      rw [ht, hnow1, hmid]
      show s.now + 299 < s.now + 300
      omega)
    have hnow2 : (searchRun mid s1).now + 1 = s.now + 300 := by
      rw [q4, hnow1, hmid]
    obtain ⟨f1, f2⟩ := fire_due (searchRun mid s1) k ⟨s.nextTimerId, k, s.now + 300⟩
      (q1.trans htim) hnow2.symm
    rw [q3, hsea1, q2, hval1, hnow2] at f2
    have hfired : (searchRun (mid ++ [.tick]) s1).searchesOf k =
        s.searchesOf k ++ [⟨s.now + 300, k, typed⟩] := by
      rw [searchRun_append]
      exact f2
    refine ⟨hfired, ?_⟩
    intro later hlater
    rw [searchRun_append]
    have hc : (searchRun (mid ++ [.tick]) s1).Consistent := consistent_run _ _ hs1
    obtain ⟨_, _, r3, _⟩ := quiet_run k later _ hc hlater (by
      intro t ht
      rw [searchRun_append] at ht
      have : (searchRun [SearchEvent.tick] (searchRun mid s1)).timersOf k = [] := f1
      rw [this] at ht
      cases ht)
    rw [r3, hfired]

set_option maxRecDepth 100000 in
/-- A concrete session: `a` is typed into input 0, 100 ms later `ab` is typed,
and 300 ms pass. The only call of `performSearch` is the one at 400 ms, with
the query `ab`. -/
theorem searchDebounce_example :
    (searchRun
      ([.input 0 ['a']] ++ List.replicate 100 .tick ++ [.input 0 ['a', 'b']] ++
        List.replicate 300 .tick)
      (SearchPage.initial (fun _ => []))).searches = [⟨400, 0, ['a', 'b']⟩] := by
  decide

end MainJs
